import Mathlib

/-
Verification of the extracting_01 pipeline (normalizer, entity detector,
relation builder, segmenter, body re-anchorer) of the spacy_API_PLS
repository, as a shallow embedding over lists of Unicode codepoints.

Python strings are modelled as `List Nat` of codepoints.  The character
classification and conversion primitives (str.isspace, str.isalpha,
str.islower, str.upper, str.lower, unicodedata NFKC / NFKD with combining
marks dropped) are modelled on the character repertoire that occurs in the
gazette inputs: ASCII, the Latin-1 letters used by Portuguese, NBSP, the
ordinal indicators, and a representative compatibility character.  Outside
that repertoire the maps are the identity, matching Unicode for all
characters that actually occur in the inputs of this program.
-/

namespace Gazette

abbrev Str := List Nat

def strOf (s : String) : Str := s.toList.map (fun c => c.toNat)

/-- Model of Python str.isspace on one codepoint (space, TAB, LF, VT, FF,
CR, NBSP). -/
def pyIsSpaceN (n : Nat) : Bool :=
  n = 32 || n = 9 || n = 10 || n = 11 || n = 12 || n = 13 || n = 160

/-- Model of Python str.isalpha on one codepoint: ASCII letters, the two
ordinal indicators (Unicode category Lo), and the Latin-1 letters (192-255
without the multiplication and division signs 215 and 247). -/
def pyIsAlphaN (n : Nat) : Bool :=
  (65 ≤ n && n ≤ 90) || (97 ≤ n && n ≤ 122) || n = 170 || n = 186 ||
    (192 ≤ n && n ≤ 255 && n ≠ 215 && n ≠ 247)

/-- Model of Python str.islower on one codepoint: ASCII lowercase, the
ordinal indicators, and the lowercase Latin-1 letters (223-255 without
247). -/
def pyIsLowerN (n : Nat) : Bool :=
  (97 ≤ n && n ≤ 122) || n = 170 || n = 186 || (223 ≤ n && n ≤ 255 && n ≠ 247)

/-- Model of Python str.upper on one codepoint.  The Latin-1 lowercase
letters map down by 32, ÿ maps to Ÿ.  ß (223) is left unchanged here; its
true uppercase is the two-letter string SS, which only matters for the
all-caps token check below, where 223 is treated as not-uppercase. -/
def pyUpperN (n : Nat) : Nat :=
  if 97 ≤ n ∧ n ≤ 122 then n - 32
  else if 224 ≤ n ∧ n ≤ 254 ∧ n ≠ 247 then n - 32
  else if n = 255 then 376
  else n

/-- Model of Python str.lower on one codepoint. -/
def pyLowerN (n : Nat) : Nat :=
  if 65 ≤ n ∧ n ≤ 90 then n + 32
  else if 192 ≤ n ∧ n ≤ 222 ∧ n ≠ 215 then n + 32
  else if n = 376 then 255
  else n

/-- Model of `_strip_diacritics` on one codepoint: NFKD decomposition with
combining marks dropped sends each precomposed Latin-1 letter to its base
letter; letters without a decomposition (Æ Ð Ø Þ ß æ ð ø þ) stay. -/
def stripDiaN (n : Nat) : Nat :=
  if 192 ≤ n ∧ n ≤ 197 then 65
  else if n = 199 then 67
  else if 200 ≤ n ∧ n ≤ 203 then 69
  else if 204 ≤ n ∧ n ≤ 207 then 73
  else if n = 209 then 78
  else if 210 ≤ n ∧ n ≤ 214 then 79
  else if 217 ≤ n ∧ n ≤ 220 then 85
  else if n = 221 then 89
  else if 224 ≤ n ∧ n ≤ 229 then 97
  else if n = 231 then 99
  else if 232 ≤ n ∧ n ≤ 235 then 101
  else if 236 ≤ n ∧ n ≤ 239 then 105
  else if n = 241 then 110
  else if 242 ≤ n ∧ n ≤ 246 then 111
  else if 249 ≤ n ∧ n ≤ 252 then 117
  else if n = 253 then 121
  else if n = 255 then 121
  else if n = 376 then 89
  else n

/-- Model of unicodedata.normalize NFKC on one codepoint.  NBSP has a
compatibility decomposition to the space, the ordinal indicators to o and
a, the horizontal ellipsis to three dots, and the fi ligature to f i; the
precomposed Latin-1 letters are already in NFC form and are fixed. -/
def nfkcN (n : Nat) : List Nat :=
  if n = 160 then [32]
  else if n = 170 then [97]
  else if n = 186 then [111]
  else if n = 8230 then [46, 46, 46]
  else if n = 64257 then [102, 105]
  else [n]

def nfkcStr (s : Str) : Str := s.flatMap nfkcN

/-- Model of `_canonical_glyphs` on one codepoint: NBSP to space, º and °
to o, ª to a. -/
def glyphN (n : Nat) : Nat :=
  if n = 160 then 32
  else if n = 186 then 111
  else if n = 176 then 111
  else if n = 170 then 97
  else n

/-- Character matched by the regex class A-Za-zÀ-ÿ of `_caps_token_rx`. -/
def capsRxN (n : Nat) : Bool :=
  (65 ≤ n && n ≤ 90) || (97 ≤ n && n ≤ 122) || (192 ≤ n && n ≤ 255)

def pyIsDigitN (n : Nat) : Bool := 48 ≤ n && n ≤ 57

/-- Word character for the regex boundary token in re.UNICODE mode. -/
def wordCharN (n : Nat) : Bool := pyIsAlphaN n || pyIsDigitN n || n = 95

-- ---------------------------------------------------------------------
-- Generic string helpers shared by several modules
-- ---------------------------------------------------------------------

/-- Python str.strip with no argument: drop leading and trailing
whitespace. -/
def pyStripWs (s : Str) : Str :=
  ((s.dropWhile pyIsSpaceN).reverse.dropWhile pyIsSpaceN).reverse

/-- Python str.strip with an explicit character set: drop those characters
from both ends. -/
def pyStripChars (cs : List Nat) (s : Str) : Str :=
  ((s.dropWhile (fun c => cs.contains c)).reverse.dropWhile
      (fun c => cs.contains c)).reverse

/-- Helper of `pySplitWs`: single pass with the token built so far held in
reverse. -/
def splitWsAux (cur : Str) : Str → List Str
  | [] => if cur = [] then [] else [cur.reverse]
  | c :: rest =>
    if pyIsSpaceN c then
      if cur = [] then splitWsAux [] rest else cur.reverse :: splitWsAux [] rest
    else splitWsAux (c :: cur) rest

/-- Python str.split with no argument: split on whitespace runs, dropping
empty pieces. -/
def pySplitWs (s : Str) : List Str := splitWsAux [] s

/-- Join a token list with single spaces. -/
def joinSpace : List Str → Str
  | [] => []
  | [t] => t
  | t :: ts => t ++ 32 :: joinSpace ts

/-- Python " ".join(s.split()): collapse internal whitespace. -/
def collapseWs (s : Str) : Str := joinSpace (pySplitWs s)

/-- Python s a b slicing for 0 ≤ a ≤ b. -/
def sliceStr (s : Str) (a b : Nat) : Str := (s.drop a).take (b - a)

-- Stable insertion sort by a strict ordering, modelling Python list.sort
-- with a key function (Python sort is stable).

def insStable (lt : α → α → Bool) (x : α) : List α → List α
  | [] => [x]
  | y :: ys => if lt y x then y :: insStable lt x ys else x :: y :: ys

def sortByLt (lt : α → α → Bool) : List α → List α
  | [] => []
  | x :: xs => insStable lt x (sortByLt lt xs)

theorem mem_insStable (lt : α → α → Bool) (x a : α) (l : List α) :
    a ∈ insStable lt x l ↔ a = x ∨ a ∈ l := by
  induction l with
  | nil => simp [insStable]
  | cons y ys ih =>
    simp only [insStable]
    split
    · simp only [List.mem_cons, ih]
      tauto
    · simp only [List.mem_cons]

theorem mem_sortByLt (lt : α → α → Bool) (a : α) (l : List α) :
    a ∈ sortByLt lt l ↔ a ∈ l := by
  induction l with
  | nil => simp [sortByLt]
  | cons x xs ih => simp [sortByLt, mem_insStable, ih]

-- ---------------------------------------------------------------------
-- body_refind.py: the normalizer `_build_normalized_with_map`
-- ---------------------------------------------------------------------

/-- Per-character payload of the non-space branch of the main loop of
`_build_normalized_with_map`: canonical glyphs, then diacritics stripped,
then lowercased. -/
def pipeN (c : Nat) : Nat := pyLowerN (stripDiaN (glyphN c))

/-- First pass of `_build_normalized_with_map` (the while loop): walk the
NFKC text, healing hyphen + line break pairs (45 10 and 45 13 10), turning
a whitespace run into one space mapped to the index of its first
character, and emitting `pipeN` of every other character.  Produces the
list of (normalized char, original index) pairs, the index counting into
the NFKC text. -/
def normPass1 : Str → Nat → Bool → List (Nat × Nat)
  | [], _, _ => []
  | 45 :: 10 :: rest, i, _ => normPass1 rest (i + 2) false
  | 45 :: 13 :: 10 :: rest, i, _ => normPass1 rest (i + 3) false
  | c :: rest, i, prev =>
    if pyIsSpaceN c then
      (if prev then [] else [(32, i)]) ++ normPass1 rest (i + 1) true
    else (pipeN c, i) :: normPass1 rest (i + 1) false

/-- Helper of `wsSub`: the flag records whether we are inside a
whitespace run that has already produced its space. -/
def wsSubA : Bool → Str → Str
  | _, [] => []
  | inRun, c :: rest =>
    if pyIsSpaceN c then
      if inRun then wsSubA true rest else 32 :: wsSubA true rest
    else c :: wsSubA false rest

/-- The regex `\s+` substitution with a single space. -/
def wsSub (s : Str) : Str := wsSubA false s

/-- The final rebuild pass of `_build_normalized_with_map` (lines 135-147
of body_refind.py): re-walk the pairs, collapsing whitespace again; the
`emitted` flag stands for len(final_norm_chars) > 0. -/
def rebuildPass : List (Nat × Nat) → Bool → Bool → List (Nat × Nat)
  | [], _, _ => []
  | (c, oi) :: rest, prevSpace, emitted =>
    if pyIsSpaceN c then
      (if !prevSpace && emitted then [(32, oi)] else []) ++
        rebuildPass rest true emitted
    else (c, oi) :: rebuildPass rest false true

/-- Pop a leading space pair, as in lines 149-151 of body_refind.py. -/
def popHeadSpace : List (Nat × Nat) → List (Nat × Nat)
  | (32, _) :: rest => rest
  | l => l

/-- Pop a trailing space pair, as in lines 152-154 of body_refind.py. -/
def popLastSpace (l : List (Nat × Nat)) : List (Nat × Nat) :=
  (popHeadSpace l.reverse).reverse

/-- The character-index pairs produced by the main loop on the NFKC text
of the input. -/
def normPairs (original : Str) : List (Nat × Nat) :=
  normPass1 (nfkcStr original) 0 false

/-- The pairs after the final rebuild pass with its leading and trailing
pops. -/
def normFin (original : Str) : List (Nat × Nat) :=
  popLastSpace (popHeadSpace (rebuildPass (normPairs original) false false))

/-- Model of `_build_normalized_with_map`: NFKC, the main loop, the
whitespace-collapse + strip emptiness test of line 126, and the final
rebuild with its leading and trailing pops.  Returns the normalized shadow
string together with the index map. -/
def buildNormalizedWithMap (original : Str) : Str × List Nat :=
  if pyStripWs (wsSub ((normPairs original).map Prod.fst)) = [] then ([], [])
  else ((normFin original).map Prod.fst, (normFin original).map Prod.snd)

-- Structural lemmas about the index map

theorem normPass1_snd_bounds :
    ∀ (l : Str) (i : Nat) (p : Bool), ∀ q ∈ normPass1 l i p,
      i ≤ q.2 ∧ q.2 < i + l.length := by
  intro l i p
  induction l, i, p using normPass1.induct with
  | case1 => simp [normPass1]
  | case2 rest i p ih =>
    intro q hq
    simp only [normPass1] at hq
    have := ih q hq
    simp only [List.length_cons]
    omega
  | case3 rest i p ih =>
    intro q hq
    simp only [normPass1] at hq
    have := ih q hq
    simp only [List.length_cons]
    omega
  | case4 c rest i prev hn1 hn2 hsp ih =>
    intro q hq
    simp only [normPass1, hsp, if_true] at hq
    rcases List.mem_append.1 hq with h | h
    · rcases prev with _ | _
      · simp only [Bool.false_eq_true, if_false, List.mem_singleton] at h
        subst h
        simp only [List.length_cons]
        omega
      · simp at h
    · have := ih q h
      simp only [List.length_cons]
      omega
  | case5 c rest i prev hn1 hn2 hsp ih =>
    intro q hq
    simp only [normPass1, hsp, if_false] at hq
    rcases List.mem_cons.1 hq with h | h
    · subst h
      simp only [List.length_cons]
      omega
    · have := ih q h
      simp only [List.length_cons]
      omega

theorem normPass1_snd_pairwise :
    ∀ (l : Str) (i : Nat) (p : Bool),
      List.Pairwise (· ≤ ·) ((normPass1 l i p).map Prod.snd) := by
  intro l i p
  induction l, i, p using normPass1.induct with
  | case1 => simp [normPass1]
  | case2 rest i p ih => simpa [normPass1] using ih
  | case3 rest i p ih => simpa [normPass1] using ih
  | case4 c rest i prev hn1 hn2 hsp ih =>
    simp only [normPass1, hsp, if_true]
    rcases prev with _ | _
    · simp only [Bool.false_eq_true, if_false, List.singleton_append,
        List.map_cons, List.pairwise_cons]
      refine ⟨?_, ih⟩
      intro x hx
      rcases List.mem_map.1 hx with ⟨q, hq, rfl⟩
      have := normPass1_snd_bounds rest (i + 1) true q hq
      omega
    · simpa using ih
  | case5 c rest i prev hn1 hn2 hsp ih =>
    simp only [normPass1]
    rw [if_neg hsp]
    simp only [List.map_cons, List.pairwise_cons]
    refine ⟨?_, ih⟩
    intro x hx
    rcases List.mem_map.1 hx with ⟨q, hq, rfl⟩
    have := normPass1_snd_bounds rest (i + 1) false q hq
    omega

theorem rebuildPass_snd_sublist :
    ∀ (l : List (Nat × Nat)) (p e : Bool),
      ((rebuildPass l p e).map Prod.snd).Sublist (l.map Prod.snd) := by
  intro l
  induction l with
  | nil => intro p e; simp [rebuildPass]
  | cons q rest ih =>
    intro p e
    rcases q with ⟨c, oi⟩
    simp only [rebuildPass]
    split
    · split
      · simpa using List.Sublist.cons₂ oi (ih true e)
      · simpa using List.Sublist.cons oi (ih true e)
    · simpa using List.Sublist.cons₂ oi (ih false true)

theorem popHeadSpace_snd_sublist (l : List (Nat × Nat)) :
    ((popHeadSpace l).map Prod.snd).Sublist (l.map Prod.snd) := by
  unfold popHeadSpace
  split
  · simp
  · exact List.Sublist.refl _

theorem popLastSpace_snd_sublist (l : List (Nat × Nat)) :
    ((popLastSpace l).map Prod.snd).Sublist (l.map Prod.snd) := by
  unfold popLastSpace
  have h := popHeadSpace_snd_sublist l.reverse
  rw [List.map_reverse] at h
  have h2 := h.reverse
  simpa using h2

theorem normFin_snd_sublist (s : Str) :
    ((normFin s).map Prod.snd).Sublist ((normPairs s).map Prod.snd) :=
  ((popLastSpace_snd_sublist _).trans (popHeadSpace_snd_sublist _)).trans
    (rebuildPass_snd_sublist (normPairs s) false false)

theorem buildNormalized_len (s : Str) :
    ((buildNormalizedWithMap s).2).length = ((buildNormalizedWithMap s).1).length := by
  unfold buildNormalizedWithMap
  split
  · rfl
  · simp

theorem buildNormalized_map_mono_bounded (s : Str) :
    List.Pairwise (· ≤ ·) ((buildNormalizedWithMap s).2) ∧
      ∀ x ∈ (buildNormalizedWithMap s).2, x < (nfkcStr s).length := by
  unfold buildNormalizedWithMap
  split
  · simp
  · constructor
    · exact List.Pairwise.sublist (normFin_snd_sublist s)
        (normPass1_snd_pairwise _ 0 false)
    · intro x hx
      have hx2 := (normFin_snd_sublist s).mem hx
      rcases List.mem_map.1 hx2 with ⟨q, hq, rfl⟩
      have := normPass1_snd_bounds (nfkcStr s) 0 false q hq
      omega

/-- Claim C5, counterexample: the index map returned by the normalizer is
not always bounded by the length of the original string.  The horizontal
ellipsis (codepoint 8230) NFKC-expands to three dots, so on the one-character
input the map is 0 1 2 and its entries 1 and 2 are not below length 1: the
map indexes the NFKC text, not the original. -/
theorem C5_index_map_counterexample :
    ¬ (∀ x ∈ (buildNormalizedWithMap [8230]).2, x < ([8230] : Str).length) := by
  decide

/-- Claim C5, amended: for every input, the pair returned by the normalizer
`_build_normalized_with_map` satisfies: the index map and the normalized
string have equal length, the map is monotonically non-decreasing, and
every map entry is a valid index into the NFKC normalization of the
original (rather than the original itself, which can be shorter). -/
theorem C5_index_map_amended (s : Str) :
    ((buildNormalizedWithMap s).2).length = ((buildNormalizedWithMap s).1).length ∧
    List.Pairwise (· ≤ ·) ((buildNormalizedWithMap s).2) ∧
    ∀ x ∈ (buildNormalizedWithMap s).2, x < (nfkcStr s).length :=
  ⟨buildNormalized_len s, (buildNormalized_map_mono_bounded s).1,
    (buildNormalized_map_mono_bounded s).2⟩

/-- Claim C5, witness: the amended bound instantiated on the ellipsis
input at map entry 2. -/
theorem C5_index_map_witness :
    (2 : Nat) ∈ (buildNormalizedWithMap [8230]).2 ∧ 2 < (nfkcStr [8230]).length :=
  ⟨by decide, (C5_index_map_amended [8230]).2.2 2 (by decide)⟩

-- ---------------------------------------------------------------------
-- Idempotence of the normalizer (claim C6)
-- ---------------------------------------------------------------------

/-- A codepoint is stable when every stage of the normalization pipeline
fixes it and it is not whitespace.  Every non-space character of a
normalized string is stable. -/
def goodChar (c : Nat) : Prop :=
  nfkcN c = [c] ∧ glyphN c = c ∧ stripDiaN c = c ∧ pyLowerN c = c ∧
    pyIsSpaceN c = false

instance (c : Nat) : Decidable (goodChar c) := by
  unfold goodChar
  infer_instance

theorem pyIsSpaceN_eq_false (c : Nat) :
    pyIsSpaceN c = false ↔
      c ≠ 32 ∧ c ≠ 9 ∧ c ≠ 10 ∧ c ≠ 11 ∧ c ≠ 12 ∧ c ≠ 13 ∧ c ≠ 160 := by
  simp only [pyIsSpaceN, Bool.or_eq_false_iff, decide_eq_false_iff_not]
  tauto

theorem nfkcN_id (d : Nat)
    (h : d ≠ 160 ∧ d ≠ 170 ∧ d ≠ 186 ∧ d ≠ 8230 ∧ d ≠ 64257) :
    nfkcN d = [d] := by
  unfold nfkcN
  repeat rw [if_neg (by omega)]

theorem glyphN_id (d : Nat) (h : d ≠ 160 ∧ d ≠ 186 ∧ d ≠ 176 ∧ d ≠ 170) :
    glyphN d = d := by
  unfold glyphN
  repeat rw [if_neg (by omega)]

theorem stripDiaN_id (d : Nat)
    (h : ¬(192 ≤ d ∧ d ≤ 197) ∧ d ≠ 199 ∧ ¬(200 ≤ d ∧ d ≤ 203) ∧
      ¬(204 ≤ d ∧ d ≤ 207) ∧ d ≠ 209 ∧ ¬(210 ≤ d ∧ d ≤ 214) ∧
      ¬(217 ≤ d ∧ d ≤ 220) ∧ d ≠ 221 ∧ ¬(224 ≤ d ∧ d ≤ 229) ∧ d ≠ 231 ∧
      ¬(232 ≤ d ∧ d ≤ 235) ∧ ¬(236 ≤ d ∧ d ≤ 239) ∧ d ≠ 241 ∧
      ¬(242 ≤ d ∧ d ≤ 246) ∧ ¬(249 ≤ d ∧ d ≤ 252) ∧ d ≠ 253 ∧ d ≠ 255 ∧
      d ≠ 376) :
    stripDiaN d = d := by
  unfold stripDiaN
  repeat rw [if_neg (by omega)]

theorem pyLowerN_id (d : Nat)
    (h : ¬(65 ≤ d ∧ d ≤ 90) ∧ ¬(192 ≤ d ∧ d ≤ 222 ∧ d ≠ 215) ∧ d ≠ 376) :
    pyLowerN d = d := by
  unfold pyLowerN
  repeat rw [if_neg (by omega)]

theorem goodChar_of (d : Nat)
    (h : d ≠ 160 ∧ d ≠ 170 ∧ d ≠ 186 ∧ d ≠ 8230 ∧ d ≠ 64257 ∧ d ≠ 176 ∧
      ¬(192 ≤ d ∧ d ≤ 197) ∧ d ≠ 199 ∧ ¬(200 ≤ d ∧ d ≤ 203) ∧
      ¬(204 ≤ d ∧ d ≤ 207) ∧ d ≠ 209 ∧ ¬(210 ≤ d ∧ d ≤ 214) ∧
      ¬(217 ≤ d ∧ d ≤ 220) ∧ d ≠ 221 ∧ ¬(224 ≤ d ∧ d ≤ 229) ∧ d ≠ 231 ∧
      ¬(232 ≤ d ∧ d ≤ 235) ∧ ¬(236 ≤ d ∧ d ≤ 239) ∧ d ≠ 241 ∧
      ¬(242 ≤ d ∧ d ≤ 246) ∧ ¬(249 ≤ d ∧ d ≤ 252) ∧ d ≠ 253 ∧ d ≠ 255 ∧
      d ≠ 376 ∧ ¬(65 ≤ d ∧ d ≤ 90) ∧ ¬(192 ≤ d ∧ d ≤ 222 ∧ d ≠ 215) ∧
      d ≠ 32 ∧ d ≠ 9 ∧ d ≠ 10 ∧ d ≠ 11 ∧ d ≠ 12 ∧ d ≠ 13) :
    goodChar d :=
  ⟨nfkcN_id d (by omega), glyphN_id d (by omega), stripDiaN_id d (by omega),
    pyLowerN_id d (by omega), (pyIsSpaceN_eq_false d).2 (by omega)⟩

set_option maxHeartbeats 1600000 in
theorem stripDiaN_cases (d : Nat) :
    stripDiaN d = d ∨
      stripDiaN d ∈ [65, 67, 69, 73, 78, 79, 85, 89, 97, 99, 101, 105, 110,
        111, 117, 121] := by
  by_cases h1 : d < 192
  · left
    exact stripDiaN_id d (by omega)
  · by_cases h2 : 376 < d
    · left
      exact stripDiaN_id d (by omega)
    · have hb1 : 192 ≤ d := by omega
      have hb2 : d ≤ 376 := by omega
      interval_cases d <;> decide

set_option maxHeartbeats 1600000 in
theorem stripDiaN_id_mid (d : Nat) (hid : stripDiaN d = d)
    (h : 192 ≤ d ∧ d ≤ 222) :
    d = 198 ∨ d = 208 ∨ d = 215 ∨ d = 216 ∨ d = 222 := by
  obtain ⟨hb1, hb2⟩ := h
  interval_cases d <;> first | omega | exact absurd hid (by decide)

theorem pyLowerN_cases (d : Nat) :
    pyLowerN d = d ∨ (65 ≤ d ∧ d ≤ 90 ∧ pyLowerN d = d + 32) ∨
      (192 ≤ d ∧ d ≤ 222 ∧ d ≠ 215 ∧ pyLowerN d = d + 32) ∨
      (d = 376 ∧ pyLowerN d = 255) := by
  unfold pyLowerN
  split_ifs with h1 h2 h3
  · right; left; exact ⟨h1.1, h1.2, rfl⟩
  · right; right; left; exact ⟨h2.1, h2.2.1, h2.2.2, rfl⟩
  · right; right; right; exact ⟨h3, rfl⟩
  · left; rfl

/-- Every character the main loop of the normalizer can emit in its
non-space branch is stable, provided the character came out of the NFKC
pass and is not whitespace. -/
theorem goodPipe (c0 c : Nat) (hc : c ∈ nfkcN c0)
    (hs : pyIsSpaceN c = false) : goodChar (pipeN c) := by
  have hsp := (pyIsSpaceN_eq_false c).1 hs
  have hne : c ≠ 170 ∧ c ≠ 186 ∧ c ≠ 8230 ∧ c ≠ 64257 := by
    unfold nfkcN at hc
    split_ifs at hc with h1 h2 h3 h4 h5 <;>
      simp only [List.mem_cons, List.mem_singleton, List.not_mem_nil,
        or_false] at hc
    · omega
    · omega
    · omega
    · rcases hc with rfl | rfl | rfl <;> omega
    · rcases hc with rfl | rfl <;> omega
    · omega
  by_cases h176 : c = 176
  · subst h176
    decide
  · have hg : glyphN c = c := glyphN_id c (by omega)
    unfold pipeN
    rw [hg]
    rcases stripDiaN_cases c with hid | hbase
    · rw [hid]
      rcases pyLowerN_cases c with hl | ⟨hb1, hb2, hl⟩ | ⟨hb1, hb2, hb3, hl⟩ |
          ⟨hb, hl⟩
      · rw [hl]
        exact ⟨nfkcN_id c (by omega), hg, hid, hl, hs⟩
      · rw [hl]
        exact goodChar_of _ (by omega)
      · rcases stripDiaN_id_mid c hid ⟨hb1, hb2⟩ with rfl | rfl | rfl | rfl |
            rfl <;> first | omega | (rw [hl]; decide)
      · rw [hb] at hid
        exact absurd hid (by decide)
    · simp only [List.mem_cons, List.mem_singleton, List.not_mem_nil,
        or_false] at hbase
      rcases hbase with h | h | h | h | h | h | h | h | h | h | h | h | h |
          h | h | h <;> (rw [h]; decide)

/-- Well-formed run of normalized output characters: stable characters and
single spaces, where the flag records whether a space was just seen (so a
space may not follow a space). -/
def okRun : Bool → Str → Prop
  | _, [] => True
  | prev, c :: rest =>
    (goodChar c ∧ okRun false rest) ∨ (c = 32 ∧ prev = false ∧ okRun true rest)

theorem goodChar_ne32 {c : Nat} (h : goodChar c) : c ≠ 32 := by
  intro hc
  subst hc
  exact absurd h.2.2.2.2 (by decide)

theorem okRun_weaken {t : Str} (h : okRun true t) : ∀ b, okRun b t := by
  intro b
  cases t with
  | nil => trivial
  | cons c rest =>
    rcases h with ⟨hg, hr⟩ | ⟨_, hpf, _⟩
    · exact Or.inl ⟨hg, hr⟩
    · exact absurd hpf (by simp)

theorem okRun_chars : ∀ (t : Str) (b : Bool), okRun b t →
    ∀ c ∈ t, c = 32 ∨ goodChar c := by
  intro t
  induction t with
  | nil => intro b _ c hc; simp at hc
  | cons x rest ih =>
    intro b h c hc
    rcases List.mem_cons.1 hc with rfl | hc2
    · rcases h with ⟨hg, _⟩ | ⟨h32, _, _⟩
      · exact Or.inr hg
      · exact Or.inl h32
    · rcases h with ⟨_, hr⟩ | ⟨_, _, hr⟩
      · exact ih false hr c hc2
      · exact ih true hr c hc2

theorem okRun_true_of {t : Str} (hok : okRun false t)
    (hh : t.head? ≠ some 32) : okRun true t := by
  cases t with
  | nil => trivial
  | cons c rest =>
    rcases hok with ⟨hg, hr⟩ | ⟨h32, _, _⟩
    · exact Or.inl ⟨hg, hr⟩
    · exact absurd (by simp [h32] : (c :: rest).head? = some 32) hh

theorem okRun_true_head {t : Str} (h : okRun true t) : t.head? ≠ some 32 := by
  cases t with
  | nil => simp
  | cons c rest =>
    rcases h with ⟨hg, _⟩ | ⟨_, hpf, _⟩
    · simpa using goodChar_ne32 hg
    · exact absurd hpf (by simp)

/-- Characters emitted by the first pass are a space or stable. -/
theorem pass1_chars :
    ∀ (l : Str) (i : Nat) (p : Bool),
      (∀ c ∈ l, pyIsSpaceN c = true ∨ goodChar (pipeN c)) →
      ∀ d ∈ (normPass1 l i p).map Prod.fst, d = 32 ∨ goodChar d := by
  intro l i p
  induction l, i, p using normPass1.induct with
  | case1 => intro _ d hd; simp [normPass1] at hd
  | case2 rest i p ih =>
    intro hl d hd
    simp only [normPass1] at hd
    exact ih (fun c hc => hl c (by simp [hc])) d hd
  | case3 rest i p ih =>
    intro hl d hd
    simp only [normPass1] at hd
    exact ih (fun c hc => hl c (by simp [hc])) d hd
  | case4 c rest i prev hn1 hn2 hsp ih =>
    intro hl d hd
    simp only [normPass1, hsp, if_true, List.map_append] at hd
    rcases List.mem_append.1 hd with h | h
    · rcases prev with _ | _
      · simp only [Bool.false_eq_true, if_false, List.map_cons, List.map_nil,
          List.mem_singleton] at h
        exact Or.inl h
      · simp at h
    · exact ih (fun c2 hc2 => hl c2 (by simp [hc2])) d h
  | case5 c rest i prev hn1 hn2 hsp ih =>
    intro hl d hd
    simp only [normPass1] at hd
    rw [if_neg hsp] at hd
    simp only [List.map_cons, List.mem_cons] at hd
    rcases hd with rfl | h
    · rcases hl c (by simp) with h2 | h2
      · exact absurd h2 hsp
      · exact Or.inr h2
    · exact ih (fun c2 hc2 => hl c2 (by simp [hc2])) d h

/-- A stable character is fixed by the per-character pipeline. -/
theorem pipeN_fix {c : Nat} (h : goodChar c) : pipeN c = c := by
  unfold pipeN
  rw [h.2.1, h.2.2.1, h.2.2.2.1]

/-- On a canonical run the first pass reproduces the input characters. -/
theorem pass1_fix :
    ∀ (l : Str) (i : Nat) (b : Bool), okRun b l →
      (normPass1 l i b).map Prod.fst = l := by
  intro l i b
  induction l, i, b using normPass1.induct with
  | case1 => intro _; simp [normPass1]
  | case2 rest i p ih =>
    intro h
    rcases h with ⟨_, hr⟩ | ⟨h32, _, _⟩
    · rcases hr with ⟨hg, _⟩ | ⟨h32, _, _⟩
      · exact absurd hg (by decide)
      · omega
    · omega
  | case3 rest i p ih =>
    intro h
    rcases h with ⟨_, hr⟩ | ⟨h32, _, _⟩
    · rcases hr with ⟨hg, _⟩ | ⟨h32, _, _⟩
      · exact absurd hg (by decide)
      · omega
    · omega
  | case4 c rest i prev hn1 hn2 hsp ih =>
    rintro (⟨hg, _⟩ | ⟨h32, hpf, hr⟩)
    · exact absurd hg.2.2.2.2 (by rw [hsp]; decide)
    · subst hpf
      simp only [normPass1, hsp, if_true, Bool.false_eq_true, if_false,
        List.singleton_append, List.map_cons]
      rw [ih hr, h32]
  | case5 c rest i prev hn1 hn2 hsp ih =>
    rintro (⟨hg, hr⟩ | ⟨h32, _, _⟩)
    · simp only [normPass1]
      rw [if_neg hsp]
      simp only [List.map_cons]
      rw [ih hr, pipeN_fix hg]
    · exact absurd (by rw [h32]; decide : pyIsSpaceN c = true) hsp

/-- NFKC fixes a string of spaces and stable characters. -/
theorem nfkc_fix :
    ∀ t : Str, (∀ c ∈ t, c = 32 ∨ goodChar c) → nfkcStr t = t := by
  intro t
  induction t with
  | nil => intro _; rfl
  | cons c rest ih =>
    intro h
    have hc : nfkcN c = [c] := by
      rcases h c (by simp) with rfl | hg
      · decide
      · exact hg.1
    simp only [nfkcStr, List.flatMap_cons] at *
    rw [hc, ih (fun x hx => h x (by simp [hx]))]
    rfl

/-- The whitespace-collapse substitution fixes a canonical run. -/
theorem wsSubA_fix : ∀ (t : Str) (b : Bool), okRun b t → wsSubA b t = t := by
  intro t
  induction t with
  | nil => intro b _; rfl
  | cons c rest ih =>
    intro b h
    rcases h with ⟨hg, hr⟩ | ⟨h32, hpf, hr⟩
    · simp only [wsSubA]
      rw [if_neg (by rw [hg.2.2.2.2]; simp)]
      rw [ih false hr]
    · subst h32 hpf
      simp only [wsSubA, if_pos (by decide : pyIsSpaceN 32 = true),
        Bool.false_eq_true, if_false]
      rw [ih true hr]

/-- Stripping fixes a run without a space at either end. -/
theorem pyStripWs_fix (t : Str) (hok : okRun false t)
    (hh : t.head? ≠ some 32) (hl : t.getLast? ≠ some 32) :
    pyStripWs t = t := by
  have hspace : ∀ c ∈ t, pyIsSpaceN c = true → c = 32 := by
    intro c hc hsp
    rcases okRun_chars t false hok c hc with rfl | hg
    · rfl
    · exact absurd hsp (by rw [hg.2.2.2.2]; simp)
  have hfront : t.dropWhile pyIsSpaceN = t := by
    cases t with
    | nil => rfl
    | cons c rest =>
      rcases hok with ⟨hg, _⟩ | ⟨h32, _, _⟩
      · rw [List.dropWhile_cons_of_neg (by rw [hg.2.2.2.2]; simp)]
      · exact absurd (by simp [h32] : (c :: rest).head? = some 32) hh
  have hback : t.reverse.dropWhile pyIsSpaceN = t.reverse := by
    cases hrev : t.reverse with
    | nil => rfl
    | cons c rest =>
      have hmem : c ∈ t := by
        have : c ∈ t.reverse := by rw [hrev]; simp
        simpa using this
      have hc32 : c ≠ 32 := by
        intro hc
        apply hl
        rw [← List.head?_reverse, hrev, hc]
        rfl
      rcases okRun_chars t false hok c hmem with rfl | hg
      · omega
      · rw [hrev] at *
        rw [List.dropWhile_cons_of_neg (by rw [hg.2.2.2.2]; simp)]
  unfold pyStripWs
  rw [hfront, hback, List.reverse_reverse]

/-- On a canonical run (with the flag saying a character was already
emitted) the rebuild pass is the identity. -/
theorem rebuild_keep :
    ∀ (l : List (Nat × Nat)) (prev : Bool),
      okRun prev (l.map Prod.fst) → rebuildPass l prev true = l := by
  intro l
  induction l with
  | nil => intro prev _; rfl
  | cons q rest ih =>
    intro prev h
    rcases q with ⟨c, oi⟩
    simp only [List.map_cons] at h
    rcases h with ⟨hg, hr⟩ | ⟨h32, hpf, hr⟩
    · simp only [rebuildPass]
      rw [if_neg (by rw [hg.2.2.2.2]; simp)]
      rw [ih false hr]
    · subst h32 hpf
      simp only [rebuildPass, if_pos (by decide : pyIsSpaceN 32 = true)]
      rw [if_pos (by decide : (!false && true) = true)]
      simp only [List.singleton_append]
      rw [ih true hr]

/-- The rebuild pass always produces a canonical run, and one that starts
with a non-space character whenever the run starts inside a whitespace run
or before anything was emitted. -/
theorem rebuild_canon :
    ∀ (l : List (Nat × Nat)) (prev em : Bool),
      (∀ d ∈ l.map Prod.fst, d = 32 ∨ goodChar d) →
      okRun false ((rebuildPass l prev em).map Prod.fst) ∧
        (prev = true ∨ em = false →
          okRun true ((rebuildPass l prev em).map Prod.fst)) := by
  intro l
  induction l with
  | nil => intro prev em _; exact ⟨trivial, fun _ => trivial⟩
  | cons q rest ih =>
    intro prev em hchars
    rcases q with ⟨c, oi⟩
    have hrest : ∀ d ∈ rest.map Prod.fst, d = 32 ∨ goodChar d := by
      intro d hd
      exact hchars d (by simp [hd])
    by_cases hsp : pyIsSpaceN c = true
    · have hc32 : c = 32 := by
        rcases hchars c (by simp) with h | h
        · exact h
        · exact absurd hsp (by rw [h.2.2.2.2]; simp)
      simp only [rebuildPass, if_pos hsp]
      by_cases hcond : (!prev && em) = true
      · rw [if_pos hcond]
        have hp : prev = false := by
          rcases prev with _ | _
          · rfl
          · simp at hcond
        have he : em = true := by
          rcases em with _ | _
          · simp at hcond
          · rfl
        subst hp he
        have hrec := ih true true hrest
        constructor
        · exact Or.inr ⟨rfl, rfl, hrec.2 (Or.inl rfl)⟩
        · intro hcase
          rcases hcase with h | h <;> simp at h
      · rw [if_neg hcond]
        have hrec := ih true em hrest
        have hok := hrec.2 (Or.inl rfl)
        exact ⟨okRun_weaken hok false, fun _ => hok⟩
    · have hg : goodChar c := by
        rcases hchars c (by simp) with h | h
        · exact absurd (by rw [h]; decide : pyIsSpaceN c = true) hsp
        · exact h
      simp only [rebuildPass, if_neg hsp]
      have hrec := ih false true hrest
      simp only [List.map_cons]
      exact ⟨Or.inl ⟨hg, hrec.1⟩, fun _ => Or.inl ⟨hg, hrec.1⟩⟩

/-- The rebuild pass with both flags clear is the identity on a canonical
run with a non-space head. -/
theorem rebuild_id (l : List (Nat × Nat))
    (h : okRun true (l.map Prod.fst)) : rebuildPass l false false = l := by
  cases l with
  | nil => rfl
  | cons q rest =>
    rcases q with ⟨c, oi⟩
    simp only [List.map_cons] at h
    rcases h with ⟨hg, hr⟩ | ⟨_, hpf, _⟩
    · simp only [rebuildPass]
      rw [if_neg (by rw [hg.2.2.2.2]; simp)]
      rw [rebuild_keep rest false hr]
    · exact absurd hpf (by simp)

theorem popHeadSpace_id (l : List (Nat × Nat))
    (h : (l.map Prod.fst).head? ≠ some 32) : popHeadSpace l = l := by
  cases l with
  | nil => rfl
  | cons q rest =>
    rcases q with ⟨c, oi⟩
    have hc : c ≠ 32 := by
      intro hc32
      exact h (by simp [hc32])
    unfold popHeadSpace
    split
    · rename_i heq
      exfalso
      simp only [List.cons_eq_cons, Prod.mk.injEq] at heq
      obtain ⟨⟨h1, _⟩, _⟩ := heq
      exact hc (by omega)
    · rfl

theorem popLastSpace_id (l : List (Nat × Nat))
    (h : (l.map Prod.fst).getLast? ≠ some 32) : popLastSpace l = l := by
  unfold popLastSpace
  rw [popHeadSpace_id l.reverse
    (by rw [List.map_reverse, List.head?_reverse]; exact h),
    List.reverse_reverse]

theorem popLastSpace_cases (l : List (Nat × Nat)) :
    (∃ oi, l.getLast? = some (32, oi) ∧ popLastSpace l = l.dropLast) ∨
      ((∀ oi, l.getLast? ≠ some (32, oi)) ∧ popLastSpace l = l) := by
  cases hrev : l.reverse with
  | nil =>
    right
    have hl : l = [] := by simpa using congrArg List.reverse hrev
    subst hl
    exact ⟨by simp, rfl⟩
  | cons q r =>
    rcases q with ⟨c, oi⟩
    have hl : l = r.reverse ++ [(c, oi)] := by
      have := congrArg List.reverse hrev
      simpa using this
    by_cases hc : c = 32
    · left
      subst hc
      refine ⟨oi, ?_, ?_⟩
      · rw [← List.head?_reverse, hrev]
        rfl
      · unfold popLastSpace
        rw [hrev]
        have hpop : popHeadSpace ((32, oi) :: r) = r := by
          unfold popHeadSpace
          rfl
        rw [hpop, hl, List.dropLast_concat]
    · right
      constructor
      · intro oi2 hcon
        rw [← List.head?_reverse, hrev] at hcon
        simp only [List.head?_cons, Option.some.injEq, Prod.mk.injEq] at hcon
        exact hc hcon.1
      · apply popLastSpace_id
        intro hcon
        rw [List.getLast?_map, ← List.head?_reverse, hrev] at hcon
        simp only [List.head?_cons] at hcon
        simp at hcon
        exact hc hcon

theorem okRun_dropLast : ∀ (t : Str) (b : Bool), okRun b t →
    okRun b t.dropLast := by
  intro t
  induction t with
  | nil => intro b _; trivial
  | cons c rest ih =>
    intro b h
    cases rest with
    | nil => trivial
    | cons c2 r =>
      have hstep : (c :: c2 :: r).dropLast = c :: (c2 :: r).dropLast := rfl
      rw [hstep]
      rcases h with ⟨hg, hr⟩ | ⟨h32, hpf, hr⟩
      · exact Or.inl ⟨hg, ih false hr⟩
      · exact Or.inr ⟨h32, hpf, ih true hr⟩

theorem okRun_dropLast_getLast :
    ∀ (t : Str) (b : Bool), okRun b t → t.getLast? = some 32 →
      t.dropLast.getLast? ≠ some 32 := by
  intro t
  induction t with
  | nil => intro b _ hcon; simp at hcon
  | cons c rest ih =>
    intro b h hlast
    cases rest with
    | nil => simp
    | cons c2 r =>
      have hstep : (c :: c2 :: r).dropLast = c :: (c2 :: r).dropLast := rfl
      have hlast2 : (c2 :: r).getLast? = some 32 := by
        rwa [List.getLast?_cons_cons] at hlast
      have hb2 : ∃ b2, okRun b2 (c2 :: r) := by
        rcases h with ⟨_, hr⟩ | ⟨_, _, hr⟩
        · exact ⟨false, hr⟩
        · exact ⟨true, hr⟩
      rw [hstep]
      cases r with
      | nil =>
        have hc2 : c2 = 32 := by simpa using hlast2
        have hcne : c ≠ 32 := by
          rcases h with ⟨hg, _⟩ | ⟨h32, hpf, hr⟩
          · exact goodChar_ne32 hg
          · subst hc2
            rcases hr with ⟨hg2, _⟩ | ⟨_, hpf2, _⟩
            · exact absurd hg2 (by decide)
            · exact absurd hpf2 (by simp)
        simpa using hcne
      | cons c3 r2 =>
        have hne : (c2 :: c3 :: r2).dropLast ≠ [] := by
          simp [List.dropLast]
        rcases hb2 with ⟨b2, hok2⟩
        have := ih b2 hok2 hlast2
        cases hdl : (c2 :: c3 :: r2).dropLast with
        | nil => exact absurd hdl hne
        | cons x xs =>
          rw [List.getLast?_cons_cons]
          rw [hdl] at this
          exact this

/-- Canonical normalized string: a well-formed run with no space at either
end. -/
def canonStr (t : Str) : Prop :=
  okRun false t ∧ t.head? ≠ some 32 ∧ t.getLast? ≠ some 32

/-- The normalizer always produces a canonical string. -/
theorem canonOut (s : Str) : canonStr ((buildNormalizedWithMap s).1) := by
  unfold buildNormalizedWithMap
  split
  · exact ⟨trivial, by simp, by simp⟩
  · have hchars : ∀ d ∈ (normPairs s).map Prod.fst, d = 32 ∨ goodChar d := by
      apply pass1_chars
      intro c hc
      rcases List.mem_flatMap.1 hc with ⟨c0, _, hc0⟩
      by_cases hsp : pyIsSpaceN c = true
      · exact Or.inl hsp
      · exact Or.inr (goodPipe c0 c hc0 (by simpa using hsp))
    have hrb := rebuild_canon (normPairs s) false false hchars
    have hrbT := hrb.2 (Or.inr rfl)
    show canonStr ((normFin s).map Prod.fst)
    unfold normFin
    set rb := rebuildPass (normPairs s) false false with hrbdef
    have hpop : popHeadSpace rb = rb :=
      popHeadSpace_id rb (okRun_true_head hrbT)
    rw [hpop]
    rcases popLastSpace_cases rb with ⟨oi, hlastp, heq⟩ | ⟨hno, heq⟩
    · rw [heq]
      have hfst : (rb.dropLast).map Prod.fst = (rb.map Prod.fst).dropLast :=
        List.map_dropLast _ _
      have hlastf : (rb.map Prod.fst).getLast? = some 32 := by
        rw [List.getLast?_map, hlastp]
        rfl
      refine ⟨?_, ?_, ?_⟩
      · rw [hfst]
        exact okRun_weaken (okRun_dropLast _ true hrbT) false
      · rw [hfst]
        exact okRun_true_head (okRun_dropLast _ true hrbT)
      · rw [hfst]
        exact okRun_dropLast_getLast _ true hrbT hlastf
    · rw [heq]
      refine ⟨okRun_weaken hrbT false, okRun_true_head hrbT, ?_⟩
      intro hcon
      rw [List.getLast?_map] at hcon
      rcases hg : rb.getLast? with _ | ⟨⟨c, oi⟩⟩
      · rw [hg] at hcon
        simp at hcon
      · rw [hg] at hcon
        simp at hcon
        exact hno oi (by rw [hg, hcon])

/-- The normalizer is the identity on canonical strings. -/
theorem buildNormalized_canon_fix (t : Str) (hc : canonStr t) :
    (buildNormalizedWithMap t).1 = t := by
  obtain ⟨hok, hh, hl⟩ := hc
  by_cases hnil : t = []
  · subst hnil
    rfl
  · have hsrc : nfkcStr t = t := nfkc_fix t (okRun_chars t false hok)
    have hpairs : (normPairs t).map Prod.fst = t := by
      unfold normPairs
      rw [hsrc]
      exact pass1_fix t 0 false hok
    have hnorm0 : pyStripWs (wsSub ((normPairs t).map Prod.fst)) = t := by
      rw [hpairs]
      unfold wsSub
      rw [wsSubA_fix t false hok]
      exact pyStripWs_fix t hok hh hl
    have hokT : okRun true ((normPairs t).map Prod.fst) := by
      rw [hpairs]
      exact okRun_true_of hok hh
    unfold buildNormalizedWithMap
    rw [if_neg (by rw [hnorm0]; exact hnil)]
    show (normFin t).map Prod.fst = t
    unfold normFin
    rw [rebuild_id _ hokT]
    rw [popHeadSpace_id _ (by rw [hpairs]; exact hh)]
    rw [popLastSpace_id _ (by rw [hpairs]; exact hl)]
    exact hpairs

/-- Claim C6: normalization is a fixed point on its own output: for every
input string, applying `_build_normalized_with_map` to the normalized
string it produced returns that string unchanged. -/
theorem C6_normalize_fixed_point (s : Str) :
    (buildNormalizedWithMap (buildNormalizedWithMap s).1).1 =
      (buildNormalizedWithMap s).1 :=
  buildNormalized_canon_fix _ (canonOut s)

-- ---------------------------------------------------------------------
-- body_refind.py: ALL-CAPS gate, candidate gathering, assignment, slicing
-- ---------------------------------------------------------------------

/-- One character of `_is_all_caps_token`: an alphabetic character must
equal its uppercase (ß fails because its Python uppercase is the
two-character SS). -/
def capsCharOk (ch : Nat) : Bool :=
  !pyIsAlphaN ch || (decide (pyUpperN ch = ch) && decide (ch ≠ 223))

/-- Model of `_is_all_caps_token`. -/
def isAllCapsToken (t : Str) : Bool :=
  t.any pyIsAlphaN && t.all capsCharOk

/-- After a newline, the regex piece of a blank line: optional whitespace
followed by another newline. -/
def wsThenNl : Str → Bool
  | [] => false
  | c :: rest =>
    if c = 10 then true else if pyIsSpaceN c then wsThenNl rest else false

/-- Search for the blank-line regex of `_passes_all_caps_gate`. -/
def hasBlankLine : Str → Bool
  | [] => false
  | c :: rest => (decide (c = 10) && wsThenNl rest) || hasBlankLine rest

/-- Model of `_passes_all_caps_gate`: reject a blank line, then every
whitespace-delimited token holding a letter of the class A-Za-zÀ-ÿ must be
all caps. -/
def passesAllCapsGate (s : Str) : Bool :=
  !hasBlankLine s &&
    (pySplitWs (pyStripWs s)).all
      (fun tok => !(tok.any capsRxN) || isAllCapsToken tok)

/-- The per-character part of `_normalize_phrase_for_regex`: NFKC, then
canonical glyphs, diacritics stripped, lowercased. -/
def phrasePipeline (s : Str) : Str :=
  (nfkcStr s).map (fun c => pyLowerN (stripDiaN (glyphN c)))

def phraseTokens (s : Str) : List Str := pySplitWs (phrasePipeline s)

/-- Model of the regex of `_normalize_phrase_for_regex`.  The pattern joins
the escaped tokens with one `\s+` apiece and is run over the normalized
body; by `canonOut` that body carries only single spaces, so the pattern
matches exactly the literal string that joins the tokens with single
spaces.  The empty list stands for the empty pattern, which the caller
skips. -/
def phraseLiteral (s : Str) : Str := joinSpace (phraseTokens s)

/-- Fuelled scan of re.finditer for a literal pattern: leftmost matches,
non-overlapping, resuming after each match.  The fuel only bounds the
recursion and is set to the text length, which each step strictly
consumes. -/
def findOccF : Nat → Str → Str → Nat → List (Nat × Nat)
  | 0, _, _, _ => []
  | _ + 1, _, [], _ => []
  | fuel + 1, lit, c :: rest, pos =>
    if lit ≠ [] ∧ List.isPrefixOf lit (c :: rest) then
      (pos, pos + lit.length) ::
        findOccF fuel lit ((c :: rest).drop lit.length) (pos + lit.length)
    else findOccF fuel lit rest (pos + 1)

def findOcc (lit s : Str) : List (Nat × Nat) := findOccF s.length lit s 0

/-- Map one normalized-text match back to original offsets and apply the
ALL-CAPS gate, as in the finditer loop of `_gather_regex_candidates`. -/
def mapHit (idxMap : List Nat) (origText : Str) (enforceCaps : Bool)
    (h : Nat × Nat) : Option (Nat × Nat) :=
  if h.1 ≥ idxMap.length ∨ h.2 - 1 ≥ idxMap.length then none
  else
    if enforceCaps &&
        !passesAllCapsGate
          (sliceStr origText (idxMap.getD h.1 0) (idxMap.getD (h.2 - 1) 0 + 1))
      then none
    else some (idxMap.getD h.1 0, idxMap.getD (h.2 - 1) 0 + 1)

/-- The sort key (start, -end) of `_gather_regex_candidates`. -/
def hitLt (a b : Nat × Nat) : Bool :=
  decide (a.1 < b.1) || (decide (a.1 = b.1) && decide (b.2 < a.2))

/-- Model of `_gather_regex_candidates` for a single phrase (the source
builds a dict for several phrases; lookups with a default of [] make that
equivalent to this function). -/
def gatherHits (normBody : Str) (idxMap : List Nat) (origText : Str)
    (enforceCaps : Bool) (phrase : Str) : List (Nat × Nat) :=
  if phraseLiteral phrase = [] then []
  else
    sortByLt hitLt
      ((findOcc (phraseLiteral phrase) normBody).filterMap
        (mapHit idxMap origText enforceCaps))

/-- One roster entry: the strings-only blueprint rows of
build_body_via_sumario_spacy. -/
structure RosterOrg where
  org_text : Str
  suborg_texts : List Str
  doc_texts : List Str
deriving DecidableEq

/-- Model of models.BodyItem (the two optional debug fields, never set by
the re-anchorer, are omitted). -/
structure BodyItem where
  org_text : Str
  org_start : Nat
  org_end : Nat
  section_id : Nat
  doc_title : Str
  doc_start : Nat
  doc_end : Nat
  relation : String
  slice_text : Str
  slice_start : Nat
  slice_end : Nat
  order_index : Nat
deriving DecidableEq

/-- An ORG entry together with its assigned span. -/
structure AssignedOrg where
  entry : RosterOrg
  assigned : Option (Nat × Nat)
deriving DecidableEq

/-- The inner candidate scan of step 4: first hit starting at or past the
cursor. -/
def chooseHit (cursor : Nat) : List (Nat × Nat) → Option (Nat × Nat)
  | [] => none
  | (st, en) :: rest =>
    if st ≥ cursor then some (st, en) else chooseHit cursor rest

/-- Step 4 of build_body_via_sumario_spacy: assign ORGs in roster order
with a moving cursor. -/
def assignOrgs (cands : Str → List (Nat × Nat)) :
    List RosterOrg → Nat → List AssignedOrg
  | [], _ => []
  | b :: bs, cursor =>
    match chooseHit cursor (cands b.org_text) with
    | some (st, en) => ⟨b, some (st, en)⟩ :: assignOrgs cands bs en
    | none => ⟨b, none⟩ :: assignOrgs cands bs cursor

/-- Helper next_org_start: the start of the next assigned ORG among the
remaining entries, defaulting to the text length. -/
def nextOrgStart (textLen : Nat) : List AssignedOrg → Nat
  | [] => textLen
  | a :: rest =>
    match a.assigned with
    | some (st, _) => st
    | none => nextOrgStart textLen rest

/-- The SUBORG / DOC assignment loops of step 5: per phrase, filter the
candidate hits to a window, pick the first at or past the running cursor,
and advance the cursor. -/
def assignSeq (cands : Str → List (Nat × Nat)) (lo hi : Nat) :
    Nat → List Str → List (Nat × Nat × Str)
  | _, [] => []
  | cursor, p :: ps =>
    match chooseHit cursor
        ((cands p).filter (fun h => decide (lo ≤ h.1) && decide (h.1 < hi))) with
    | some (st, en) => (st, en, p) :: assignSeq cands lo hi en ps
    | none => assignSeq cands lo hi cursor ps

/-- The look-back safety net: the first doc candidate starting in the 120
characters before the ORG end (outer loop over phrases, inner over hits,
both breaking at the first find). -/
def lookbackPick (cands : Str → List (Nat × Nat)) (orgEn : Nat) :
    List Str → Option (Nat × Nat)
  | [] => none
  | p :: ps =>
    match (cands p).find?
        (fun h => decide (orgEn - 120 ≤ h.1) && decide (h.1 < orgEn)) with
    | some h => some h
    | none => lookbackPick cands orgEn ps

/-- Shared constructor for the BodyItem records of steps 5 and 6; the ORG
text is whitespace-collapsed and the slice text stripped exactly as in the
source. -/
def mkItem (fullText orgText : Str) (orgSt orgEn : Nat) (docTitle : Str)
    (docSt docEn : Nat) (rel : String) (slSt slEn idx : Nat) : BodyItem :=
  { org_text := collapseWs orgText
    org_start := orgSt
    org_end := orgEn
    section_id := orgSt
    doc_title := docTitle
    doc_start := docSt
    doc_end := docEn
    relation := rel
    slice_text := pyStripWs (sliceStr fullText slSt slEn)
    slice_start := slSt
    slice_end := slEn
    order_index := idx }

/-- Fallback slicing by SUBORG assignments: each chunk runs from one
suborg to the next (or to the section end), labelled CONTAINS and titled
by the suborg phrase. -/
def emitSubs (fullText orgText : Str) (orgSt orgEn sectionEnd : Nat) :
    Nat → List (Nat × Nat × Str) → List BodyItem × Nat
  | idx, [] => ([], idx)
  | idx, (st, en, p) :: rest =>
    let segEnd :=
      match rest with
      | (st2, _, _) :: _ => st2
      | [] => sectionEnd
    let rec2 := emitSubs fullText orgText orgSt orgEn sectionEnd (idx + 1) rest
    (mkItem fullText orgText orgSt orgEn p st en (r"CONTAINS") st segEnd idx :: rec2.1,
      rec2.2)

/-- Doc-driven slicing for the assignments after the first: middles run to
the next doc start, the last one to the section end. -/
def emitDocChain (fullText orgText : Str) (orgSt orgEn sectionEnd : Nat) :
    Nat → List (Nat × Nat) → List BodyItem × Nat
  | idx, [] => ([], idx)
  | idx, [(st, en)] =>
    ([mkItem fullText orgText orgSt orgEn (sliceStr fullText st en) st en
        (r"SECTION_ITEM") st sectionEnd idx], idx + 1)
  | idx, (st, en) :: (st2, en2) :: rest =>
    let rec2 := emitDocChain fullText orgText orgSt orgEn sectionEnd
      (idx + 1) ((st2, en2) :: rest)
    (mkItem fullText orgText orgSt orgEn (sliceStr fullText st en) st en
        (r"SECTION_ITEM") st st2 idx :: rec2.1,
      rec2.2)

/-- The SUBORG assignments of one ORG section (step 5). -/
def orgSubAssigns (subC : Str → List (Nat × Nat)) (entry : RosterOrg)
    (orgSt sectionEnd : Nat) : List (Nat × Nat × Str) :=
  assignSeq subC orgSt sectionEnd orgSt entry.suborg_texts

/-- The primary DOC assignments of one ORG section (step 5). -/
def orgDocAssigns (docC : Str → List (Nat × Nat)) (entry : RosterOrg)
    (orgEn sectionEnd : Nat) : List (Nat × Nat) :=
  (assignSeq docC orgEn sectionEnd orgEn entry.doc_texts).map
    (fun t => (t.1, t.2.1))

/-- The DOC assignments after the look-back retry. -/
def orgDocAssignsFinal (docC : Str → List (Nat × Nat)) (entry : RosterOrg)
    (orgEn sectionEnd : Nat) : List (Nat × Nat) :=
  match orgDocAssigns docC entry orgEn sectionEnd with
  | [] =>
    match lookbackPick docC orgEn entry.doc_texts with
    | some h => [h]
    | none => []
  | l => l

/-- Emission of the BodyItems of one assigned ORG: doc-driven slicing when
any DOC was assigned, otherwise suborg-driven slicing, otherwise
nothing. -/
def emitOrg (fullText : Str) (subC docC : Str → List (Nat × Nat))
    (entry : RosterOrg) (orgSt orgEn sectionEnd idx : Nat) :
    List BodyItem × Nat :=
  match orgDocAssignsFinal docC entry orgEn sectionEnd with
  | [] =>
    match orgSubAssigns subC entry orgSt sectionEnd with
    | [] => ([], idx)
    | subs => emitSubs fullText entry.org_text orgSt orgEn sectionEnd idx subs
  | (d0st, d0en) :: dtail =>
    let firstEnd :=
      match dtail with
      | (st2, _) :: _ => st2
      | [] => sectionEnd
    let rec2 := emitDocChain fullText entry.org_text orgSt orgEn sectionEnd
      (idx + 1) dtail
    (mkItem fullText entry.org_text orgSt orgEn (sliceStr fullText d0st d0en)
        d0st d0en (r"SECTION_ITEM") orgSt firstEnd idx :: rec2.1,
      rec2.2)

/-- The main emission loop of step 5, over the assigned ORG list, with the
running order index. -/
def emitAll (fullText : Str) (subC docC : Str → List (Nat × Nat)) :
    List AssignedOrg → Nat → List BodyItem
  | [], _ => []
  | a :: rest, idx =>
    match a.assigned with
    | none => emitAll fullText subC docC rest idx
    | some (st, en) =>
      (emitOrg fullText subC docC a.entry st en
          (nextOrgStart fullText.length rest) idx).1 ++
        emitAll fullText subC docC rest
          (emitOrg fullText subC docC a.entry st en
            (nextOrgStart fullText.length rest) idx).2

/-- ORG and SUBORG candidates: caps enforced on the original text. -/
def capsCandsOf (fullText : Str) : Str → List (Nat × Nat) := fun p =>
  gatherHits (buildNormalizedWithMap fullText).1
    (buildNormalizedWithMap fullText).2 fullText true p

/-- DOC candidates: no caps enforcement. -/
def docCandsOf (fullText : Str) : Str → List (Nat × Nat) := fun p =>
  gatherHits (buildNormalizedWithMap fullText).1
    (buildNormalizedWithMap fullText).2 fullText false p

/-- Model of build_body_via_sumario_spacy: normalize the body, gather the
candidates per roster phrase, assign the ORGs with the moving cursor, then
slice each section. -/
def buildBodyViaSumarioSpacy (fullText : Str) (orgs : List RosterOrg) :
    List BodyItem :=
  emitAll fullText (capsCandsOf fullText) (docCandsOf fullText)
    (assignOrgs (capsCandsOf fullText) orgs 0) 1

-- Well-formedness of gathered hits: every hit has start < end.

theorem findOccF_shape :
    ∀ (fuel : Nat) (lit s : Str) (pos : Nat), ∀ q ∈ findOccF fuel lit s pos,
      q.2 = q.1 + lit.length := by
  intro fuel
  induction fuel with
  | zero => intro lit s pos q hq; simp [findOccF] at hq
  | succ n ih =>
    intro lit s pos q hq
    cases s with
    | nil => simp [findOccF] at hq
    | cons c rest =>
      simp only [findOccF] at hq
      split at hq
      · rcases List.mem_cons.1 hq with rfl | h
        · rfl
        · exact ih _ _ _ q h
      · exact ih _ _ _ q hq

theorem getD_mono_of_pairwise (l : List Nat)
    (hp : List.Pairwise (· ≤ ·) l) (i j : Nat) (hij : i ≤ j)
    (hj : j < l.length) : l.getD i 0 ≤ l.getD j 0 := by
  rcases Nat.eq_or_lt_of_le hij with rfl | hlt
  · exact Nat.le_refl _
  · have hi : i < l.length := Nat.lt_trans hlt hj
    rw [List.getD_eq_getElem l 0 hi, List.getD_eq_getElem l 0 hj]
    exact List.pairwise_iff_getElem.1 hp i j hi hj hlt

theorem gatherHits_wf (normBody : Str) (idxMap : List Nat) (orig : Str)
    (enf : Bool) (p : Str) (hp : List.Pairwise (· ≤ ·) idxMap) :
    ∀ h ∈ gatherHits normBody idxMap orig enf p, h.1 < h.2 := by
  intro h hmem
  unfold gatherHits at hmem
  split at hmem
  · simp at hmem
  · rename_i hlit
    rw [mem_sortByLt] at hmem
    rcases List.mem_filterMap.1 hmem with ⟨q, hq, hmap⟩
    have hshape := findOccF_shape _ _ _ _ q hq
    unfold mapHit at hmap
    split at hmap
    · simp at hmap
    · rename_i hbounds
      push_neg at hbounds
      split at hmap
      · simp at hmap
      · simp only [Option.some.injEq] at hmap
        subst hmap
        have hlen : 1 ≤ (phraseLiteral p).length :=
          List.length_pos.2 hlit
        have hle : q.1 ≤ q.2 - 1 := by omega
        have := getD_mono_of_pairwise idxMap hp q.1 (q.2 - 1) hle hbounds.2
        simp only []
        omega

theorem capsCandsOf_wf (ft p : Str) :
    ∀ h ∈ capsCandsOf ft p, h.1 < h.2 :=
  gatherHits_wf _ _ _ _ _ (buildNormalized_map_mono_bounded ft).1

theorem docCandsOf_wf (ft p : Str) :
    ∀ h ∈ docCandsOf ft p, h.1 < h.2 :=
  gatherHits_wf _ _ _ _ _ (buildNormalized_map_mono_bounded ft).1

-- Assignment lemmas (step 4)

theorem chooseHit_eq_find? : ∀ (c : Nat) (l : List (Nat × Nat)),
    chooseHit c l = l.find? (fun h => decide (c ≤ h.1)) := by
  intro c l
  induction l with
  | nil => rfl
  | cons q rest ih =>
    rcases q with ⟨st, en⟩
    simp only [chooseHit, List.find?]
    by_cases hc : st ≥ c
    · rw [if_pos hc]
      have : (decide (c ≤ st) : Bool) = true := by simpa using hc
      rw [this]
    · rw [if_neg hc]
      have : (decide (c ≤ st) : Bool) = false := by simpa using hc
      rw [this]
      exact ih

theorem chooseHit_mem : ∀ (c : Nat) (l : List (Nat × Nat)) (st en : Nat),
    chooseHit c l = some (st, en) → (st, en) ∈ l ∧ c ≤ st := by
  intro c l
  induction l with
  | nil => intro st en h; simp [chooseHit] at h
  | cons q rest ih =>
    intro st en h
    rcases q with ⟨st0, en0⟩
    simp only [chooseHit] at h
    split at h
    · simp only [Option.some.injEq, Prod.mk.injEq] at h
      rcases h with ⟨rfl, rfl⟩
      exact ⟨by simp, by omega⟩
    · rcases ih st en h with ⟨hm, hc⟩
      exact ⟨by simp [hm], hc⟩

/-- Every assigned span starts at or past the entry cursor (candidates
are assumed well formed so that the cursor never moves backwards). -/
theorem assignOrgs_ge (cands : Str → List (Nat × Nat))
    (hw : ∀ p, ∀ h ∈ cands p, h.1 < h.2) :
    ∀ (bs : List RosterOrg) (c : Nat), ∀ a ∈ assignOrgs cands bs c,
      ∀ st en, a.assigned = some (st, en) → c ≤ st := by
  intro bs
  induction bs with
  | nil => intro c a ha; simp [assignOrgs] at ha
  | cons b rest ih =>
    intro c a ha st en hasg
    simp only [assignOrgs] at ha
    cases hch : chooseHit c (cands b.org_text) with
    | none =>
      rw [hch] at ha
      rcases List.mem_cons.1 ha with rfl | h
      · simp at hasg
      · exact ih c a h st en hasg
    | some q =>
      rcases q with ⟨st0, en0⟩
      rw [hch] at ha
      rcases List.mem_cons.1 ha with rfl | h
      · simp only [Option.some.injEq, Prod.mk.injEq] at hasg
        obtain ⟨h1, h2⟩ := hasg
        have := (chooseHit_mem c _ st0 en0 hch).2
        omega
      · obtain ⟨hmem0, hc0⟩ := chooseHit_mem c _ st0 en0 hch
        have hwf0 := hw b.org_text (st0, en0) hmem0
        have htail := ih en0 a h st en hasg
        simp only at hwf0
        omega

/-- Relation between two assigned entries: the earlier span ends before
the later starts, and starts strictly increase. -/
def AssignRel (a b : AssignedOrg) : Prop :=
  ∀ st en st2 en2, a.assigned = some (st, en) → b.assigned = some (st2, en2) →
    en ≤ st2 ∧ st < st2

theorem assignOrgs_pairwise (cands : Str → List (Nat × Nat))
    (hw : ∀ p, ∀ h ∈ cands p, h.1 < h.2) :
    ∀ (bs : List RosterOrg) (c : Nat),
      List.Pairwise AssignRel (assignOrgs cands bs c) := by
  intro bs
  induction bs with
  | nil => intro c; simp [assignOrgs]
  | cons b rest ih =>
    intro c
    simp only [assignOrgs]
    cases hch : chooseHit c (cands b.org_text) with
    | none =>
      refine List.Pairwise.cons ?_ (ih c)
      intro x hx st en st2 en2 hasg _
      simp at hasg
    | some q =>
      rcases q with ⟨st0, en0⟩
      refine List.Pairwise.cons ?_ (ih en0)
      intro x hx st en st2 en2 hasg hasg2
      simp only [Option.some.injEq, Prod.mk.injEq] at hasg
      obtain ⟨h1, h2⟩ := hasg
      have htail := assignOrgs_ge cands hw rest en0 x hx st2 en2 hasg2
      have hmem := (chooseHit_mem c _ st0 en0 hch).1
      have hwf := hw b.org_text (st0, en0) hmem
      simp only at hwf
      omega

/-- The assignment keeps the roster entries in order: the i-th assignment
carries the i-th roster entry and picks the first candidate at or past the
running cursor. -/
def cursorAfter (cands : Str → List (Nat × Nat)) :
    List RosterOrg → Nat → Nat
  | [], c => c
  | b :: bs, c =>
    match chooseHit c (cands b.org_text) with
    | some (_, en) => cursorAfter cands bs en
    | none => cursorAfter cands bs c

theorem assignOrgs_get? (cands : Str → List (Nat × Nat)) :
    ∀ (bs : List RosterOrg) (c i : Nat),
      (assignOrgs cands bs c)[i]? =
        (bs[i]?).map (fun b =>
          ⟨b, chooseHit (cursorAfter cands (bs.take i) c) (cands b.org_text)⟩) := by
  intro bs
  induction bs with
  | nil => intro c i; simp [assignOrgs]
  | cons b rest ih =>
    intro c i
    simp only [assignOrgs]
    cases i with
    | zero =>
      cases hch : chooseHit c (cands b.org_text) with
      | none => simp [cursorAfter, hch]
      | some q =>
        rcases q with ⟨st0, en0⟩
        simp [cursorAfter, hch]
    | succ n =>
      cases hch : chooseHit c (cands b.org_text) with
      | none =>
        simp only [List.getElem?_cons_succ, List.take_succ_cons, cursorAfter,
          hch]
        exact ih c n
      | some q =>
        rcases q with ⟨st0, en0⟩
        simp only [List.getElem?_cons_succ, List.take_succ_cons, cursorAfter,
          hch]
        exact ih en0 n

-- Step-5 assignment sequences: cursor bounds and ordering

theorem assignSeq_bounds (cands : Str → List (Nat × Nat)) (lo hi : Nat)
    (hw : ∀ p, ∀ h ∈ cands p, h.1 < h.2) :
    ∀ (ps : List Str) (cursor : Nat), ∀ x ∈ assignSeq cands lo hi cursor ps,
      cursor ≤ x.1 ∧ x.1 < x.2.1 := by
  intro ps
  induction ps with
  | nil => intro cursor x hx; simp [assignSeq] at hx
  | cons p rest ih =>
    intro cursor x hx
    simp only [assignSeq] at hx
    cases hch : chooseHit cursor
        ((cands p).filter (fun h => decide (lo ≤ h.1) && decide (h.1 < hi))) with
    | none =>
      rw [hch] at hx
      exact ih cursor x hx
    | some q =>
      rcases q with ⟨st, en⟩
      rw [hch] at hx
      obtain ⟨hmem, hcur⟩ := chooseHit_mem _ _ st en hch
      have hwf : st < en := by
        have := hw p (st, en) (List.mem_of_mem_filter hmem)
        simpa using this
      rcases List.mem_cons.1 hx with rfl | h
      · exact ⟨hcur, hwf⟩
      · have := ih en x h
        simp only at this ⊢
        omega

/-- Strict ordering of the chosen sequence: every earlier choice ends at
or before a later choice starts, and starts strictly increase. -/
theorem assignSeq_pairwise (cands : Str → List (Nat × Nat)) (lo hi : Nat)
    (hw : ∀ p, ∀ h ∈ cands p, h.1 < h.2) :
    ∀ (ps : List Str) (cursor : Nat),
      List.Pairwise (fun a b : Nat × Nat × Str => a.2.1 ≤ b.1 ∧ a.1 < b.1)
        (assignSeq cands lo hi cursor ps) := by
  intro ps
  induction ps with
  | nil => intro cursor; simp [assignSeq]
  | cons p rest ih =>
    intro cursor
    simp only [assignSeq]
    cases hch : chooseHit cursor
        ((cands p).filter (fun h => decide (lo ≤ h.1) && decide (h.1 < hi))) with
    | none => exact ih cursor
    | some q =>
      rcases q with ⟨st, en⟩
      refine List.Pairwise.cons ?_ (ih en)
      intro x hx
      have hx2 := assignSeq_bounds cands lo hi hw rest en x hx
      obtain ⟨hmem, _⟩ := chooseHit_mem _ _ st en hch
      have hwf : st < en := by
        have := hw p (st, en) (List.mem_of_mem_filter hmem)
        simpa using this
      simp only at hx2 ⊢
      omega

-- Emission lemmas: order indices, section ids, slice ordering

theorem emitSubs_snd (ft ot : Str) (a b c : Nat) :
    ∀ (subs : List (Nat × Nat × Str)) (idx : Nat),
      (emitSubs ft ot a b c idx subs).2 =
        idx + (emitSubs ft ot a b c idx subs).1.length := by
  intro subs
  induction subs with
  | nil => intro idx; simp [emitSubs]
  | cons s rest ih =>
    intro idx
    rcases s with ⟨st, en, p⟩
    simp only [emitSubs, List.length_cons]
    rw [ih (idx + 1)]
    omega

theorem emitSubs_order (ft ot : Str) (a b c : Nat) :
    ∀ (subs : List (Nat × Nat × Str)) (idx : Nat),
      (emitSubs ft ot a b c idx subs).1.map (fun it => it.order_index) =
        List.range' idx (emitSubs ft ot a b c idx subs).1.length := by
  intro subs
  induction subs with
  | nil => intro idx; simp [emitSubs]
  | cons s rest ih =>
    intro idx
    rcases s with ⟨st, en, p⟩
    simp only [emitSubs, List.map_cons, List.length_cons, List.range'_succ]
    rw [ih (idx + 1)]
    rfl

theorem emitSubs_section (ft ot : Str) (a b c : Nat) :
    ∀ (subs : List (Nat × Nat × Str)) (idx : Nat),
      ∀ it ∈ (emitSubs ft ot a b c idx subs).1, it.section_id = a := by
  intro subs
  induction subs with
  | nil => intro idx it hit; simp [emitSubs] at hit
  | cons s rest ih =>
    intro idx it hit
    rcases s with ⟨st, en, p⟩
    simp only [emitSubs, List.mem_cons] at hit
    rcases hit with rfl | h
    · rfl
    · exact ih (idx + 1) it h

theorem emitSubs_start (ft ot : Str) (a b c : Nat) :
    ∀ (subs : List (Nat × Nat × Str)) (idx : Nat),
      ∀ it ∈ (emitSubs ft ot a b c idx subs).1,
        ∃ x ∈ subs, it.slice_start = x.1 := by
  intro subs
  induction subs with
  | nil => intro idx it hit; simp [emitSubs] at hit
  | cons s rest ih =>
    intro idx it hit
    rcases s with ⟨st, en, p⟩
    simp only [emitSubs, List.mem_cons] at hit
    rcases hit with rfl | h
    · exact ⟨(st, en, p), by simp, rfl⟩
    · rcases ih (idx + 1) it h with ⟨x, hx, he⟩
      exact ⟨x, by simp [hx], he⟩

theorem emitSubs_pairwise (ft ot : Str) (a b c : Nat) :
    ∀ (subs : List (Nat × Nat × Str)) (idx : Nat),
      List.Pairwise (fun x y : Nat × Nat × Str => x.2.1 ≤ y.1 ∧ x.1 < y.1)
        subs →
      List.Pairwise (fun x y : BodyItem => x.slice_end ≤ y.slice_start)
        (emitSubs ft ot a b c idx subs).1 := by
  intro subs
  induction subs with
  | nil => intro idx _; simp [emitSubs]
  | cons s rest ih =>
    intro idx hp
    rcases s with ⟨st, en, p⟩
    rcases hp with _ | ⟨hrel, hrest⟩
    cases rest with
    | nil =>
      simp [emitSubs]
    | cons r0 r2 =>
      rcases r0 with ⟨st2, en2, p2⟩
      simp only [emitSubs]
      refine List.Pairwise.cons ?_ (ih (idx + 1) hrest)
      intro it hit
      rcases emitSubs_start ft ot a b c ((st2, en2, p2) :: r2) (idx + 1) it
        hit with ⟨x, hx, he⟩
      show st2 ≤ it.slice_start
      rw [he]
      rcases List.mem_cons.1 hx with rfl | hx2
      · exact Nat.le_refl _
      · rcases hrest with _ | ⟨hrel2, _⟩
        have := hrel2 x hx2
        omega

theorem emitDocChain_snd (ft ot : Str) (a b c : Nat) :
    ∀ (docs : List (Nat × Nat)) (idx : Nat),
      (emitDocChain ft ot a b c idx docs).2 =
        idx + (emitDocChain ft ot a b c idx docs).1.length := by
  intro docs
  induction docs with
  | nil => intro idx; simp [emitDocChain]
  | cons d rest ih =>
    intro idx
    rcases d with ⟨st, en⟩
    cases rest with
    | nil => simp [emitDocChain]
    | cons d2 r2 =>
      rcases d2 with ⟨st2, en2⟩
      simp only [emitDocChain, List.length_cons]
      rw [ih (idx + 1)]
      omega

theorem emitDocChain_order (ft ot : Str) (a b c : Nat) :
    ∀ (docs : List (Nat × Nat)) (idx : Nat),
      (emitDocChain ft ot a b c idx docs).1.map (fun it => it.order_index) =
        List.range' idx (emitDocChain ft ot a b c idx docs).1.length := by
  intro docs
  induction docs with
  | nil => intro idx; simp [emitDocChain]
  | cons d rest ih =>
    intro idx
    rcases d with ⟨st, en⟩
    cases rest with
    | nil => simp [emitDocChain, List.range'_succ]; rfl
    | cons d2 r2 =>
      rcases d2 with ⟨st2, en2⟩
      simp only [emitDocChain, List.map_cons, List.length_cons,
        List.range'_succ]
      rw [ih (idx + 1)]
      rfl

theorem emitDocChain_section (ft ot : Str) (a b c : Nat) :
    ∀ (docs : List (Nat × Nat)) (idx : Nat),
      ∀ it ∈ (emitDocChain ft ot a b c idx docs).1, it.section_id = a := by
  intro docs
  induction docs with
  | nil => intro idx it hit; simp [emitDocChain] at hit
  | cons d rest ih =>
    intro idx it hit
    rcases d with ⟨st, en⟩
    cases rest with
    | nil =>
      simp only [emitDocChain, List.mem_singleton] at hit
      subst hit
      rfl
    | cons d2 r2 =>
      rcases d2 with ⟨st2, en2⟩
      simp only [emitDocChain, List.mem_cons] at hit
      rcases hit with rfl | h
      · rfl
      · exact ih (idx + 1) it h

theorem emitDocChain_start (ft ot : Str) (a b c : Nat) :
    ∀ (docs : List (Nat × Nat)) (idx : Nat),
      ∀ it ∈ (emitDocChain ft ot a b c idx docs).1,
        ∃ x ∈ docs, it.slice_start = x.1 := by
  intro docs
  induction docs with
  | nil => intro idx it hit; simp [emitDocChain] at hit
  | cons d rest ih =>
    intro idx it hit
    rcases d with ⟨st, en⟩
    cases rest with
    | nil =>
      simp only [emitDocChain, List.mem_singleton] at hit
      subst hit
      exact ⟨(st, en), by simp, rfl⟩
    | cons d2 r2 =>
      rcases d2 with ⟨st2, en2⟩
      simp only [emitDocChain, List.mem_cons] at hit
      rcases hit with rfl | h
      · exact ⟨(st, en), by simp, rfl⟩
      · rcases ih (idx + 1) it h with ⟨x, hx, he⟩
        exact ⟨x, by simp [hx], he⟩

theorem emitDocChain_pairwise (ft ot : Str) (a b c : Nat) :
    ∀ (docs : List (Nat × Nat)) (idx : Nat),
      List.Pairwise (fun x y : Nat × Nat => x.1 < y.1) docs →
      List.Pairwise (fun x y : BodyItem => x.slice_end ≤ y.slice_start)
        (emitDocChain ft ot a b c idx docs).1 := by
  intro docs
  induction docs with
  | nil => intro idx _; simp [emitDocChain]
  | cons d rest ih =>
    intro idx hp
    rcases d with ⟨st, en⟩
    rcases hp with _ | ⟨hrel, hrest⟩
    cases rest with
    | nil => simp [emitDocChain]
    | cons d2 r2 =>
      rcases d2 with ⟨st2, en2⟩
      simp only [emitDocChain]
      refine List.Pairwise.cons ?_ (ih (idx + 1) hrest)
      intro it hit
      rcases emitDocChain_start ft ot a b c ((st2, en2) :: r2) (idx + 1) it
        hit with ⟨x, hx, he⟩
      show st2 ≤ it.slice_start
      rw [he]
      rcases List.mem_cons.1 hx with rfl | hx2
      · exact Nat.le_refl _
      · rcases hrest with _ | ⟨hrel2, _⟩
        have := hrel2 x hx2
        omega

theorem orgDocAssigns_pairwise (docC : Str → List (Nat × Nat))
    (hw : ∀ p, ∀ h ∈ docC p, h.1 < h.2) (entry : RosterOrg)
    (orgEn secEnd : Nat) :
    List.Pairwise (fun x y : Nat × Nat => x.1 < y.1)
      (orgDocAssigns docC entry orgEn secEnd) := by
  unfold orgDocAssigns
  rw [List.pairwise_map]
  exact (assignSeq_pairwise docC orgEn secEnd hw entry.doc_texts orgEn).imp
    (fun h => h.2)

theorem orgDocAssignsFinal_pairwise (docC : Str → List (Nat × Nat))
    (hw : ∀ p, ∀ h ∈ docC p, h.1 < h.2) (entry : RosterOrg)
    (orgEn secEnd : Nat) :
    List.Pairwise (fun x y : Nat × Nat => x.1 < y.1)
      (orgDocAssignsFinal docC entry orgEn secEnd) := by
  unfold orgDocAssignsFinal
  cases hda : orgDocAssigns docC entry orgEn secEnd with
  | nil =>
    cases lookbackPick docC orgEn entry.doc_texts with
    | none => simp
    | some h => simp
  | cons d l =>
    have h2 := orgDocAssigns_pairwise docC hw entry orgEn secEnd
    rw [hda] at h2
    exact h2

theorem emitOrg_snd (ft : Str) (sc dc : Str → List (Nat × Nat))
    (e : RosterOrg) (st en se idx : Nat) :
    (emitOrg ft sc dc e st en se idx).2 =
      idx + (emitOrg ft sc dc e st en se idx).1.length := by
  unfold emitOrg
  cases hdf : orgDocAssignsFinal dc e en se with
  | nil =>
    cases hsa : orgSubAssigns sc e st se with
    | nil => simp
    | cons s rest =>
      simp only []
      rw [emitSubs_snd]
  | cons d0 dtail =>
    rcases d0 with ⟨d0st, d0en⟩
    simp only [List.length_cons]
    rw [emitDocChain_snd]
    omega

theorem emitOrg_order (ft : Str) (sc dc : Str → List (Nat × Nat))
    (e : RosterOrg) (st en se idx : Nat) :
    (emitOrg ft sc dc e st en se idx).1.map (fun it => it.order_index) =
      List.range' idx (emitOrg ft sc dc e st en se idx).1.length := by
  unfold emitOrg
  cases hdf : orgDocAssignsFinal dc e en se with
  | nil =>
    cases hsa : orgSubAssigns sc e st se with
    | nil => simp
    | cons s rest =>
      simp only []
      rw [emitSubs_order]
  | cons d0 dtail =>
    rcases d0 with ⟨d0st, d0en⟩
    simp only [List.map_cons, List.length_cons, List.range'_succ]
    rw [emitDocChain_order]
    rfl

theorem emitOrg_section (ft : Str) (sc dc : Str → List (Nat × Nat))
    (e : RosterOrg) (st en se idx : Nat) :
    ∀ it ∈ (emitOrg ft sc dc e st en se idx).1, it.section_id = st := by
  unfold emitOrg
  cases hdf : orgDocAssignsFinal dc e en se with
  | nil =>
    cases hsa : orgSubAssigns sc e st se with
    | nil => simp
    | cons s rest =>
      simp only []
      exact emitSubs_section ft e.org_text st en se (s :: rest) idx
  | cons d0 dtail =>
    rcases d0 with ⟨d0st, d0en⟩
    intro it hit
    simp only [List.mem_cons] at hit
    rcases hit with rfl | h
    · rfl
    · exact emitDocChain_section ft e.org_text st en se dtail (idx + 1) it h

theorem emitOrg_pairwise (ft : Str) (sc dc : Str → List (Nat × Nat))
    (hws : ∀ p, ∀ h ∈ sc p, h.1 < h.2) (hwd : ∀ p, ∀ h ∈ dc p, h.1 < h.2)
    (e : RosterOrg) (st en se idx : Nat) :
    List.Pairwise (fun x y : BodyItem => x.slice_end ≤ y.slice_start)
      (emitOrg ft sc dc e st en se idx).1 := by
  unfold emitOrg
  cases hdf : orgDocAssignsFinal dc e en se with
  | nil =>
    cases hsa : orgSubAssigns sc e st se with
    | nil => simp
    | cons s rest =>
      simp only []
      apply emitSubs_pairwise
      rw [← hsa]
      unfold orgSubAssigns
      exact assignSeq_pairwise sc st se hws e.suborg_texts st
  | cons d0 dtail =>
    rcases d0 with ⟨d0st, d0en⟩
    have hpfin := orgDocAssignsFinal_pairwise dc hwd e en se
    rw [hdf] at hpfin
    rcases hpfin with _ | ⟨hrel, hrest⟩
    refine List.Pairwise.cons ?_
      (emitDocChain_pairwise ft e.org_text st en se dtail (idx + 1) hrest)
    intro it hit
    rcases emitDocChain_start ft e.org_text st en se dtail (idx + 1) it hit
      with ⟨x, hx, he⟩
    cases dtail with
    | nil => simp at hx
    | cons d2 r2 =>
      rcases d2 with ⟨st2, en2⟩
      show st2 ≤ it.slice_start
      rw [he]
      rcases List.mem_cons.1 hx with rfl | hx2
      · exact Nat.le_refl _
      · rcases hrest with _ | ⟨hrel2, _⟩
        have := hrel2 x hx2
        omega

theorem emitAll_order (ft : Str) (sc dc : Str → List (Nat × Nat)) :
    ∀ (asg : List AssignedOrg) (idx : Nat),
      (emitAll ft sc dc asg idx).map (fun it => it.order_index) =
        List.range' idx (emitAll ft sc dc asg idx).length := by
  intro asg
  induction asg with
  | nil => intro idx; simp [emitAll]
  | cons a rest ih =>
    intro idx
    simp only [emitAll]
    cases hasg : a.assigned with
    | none => exact ih idx
    | some q =>
      rcases q with ⟨st, en⟩
      simp only [List.map_append, List.length_append]
      rw [emitOrg_order, ih, emitOrg_snd]
      have := List.range'_append idx
        (emitOrg ft sc dc a.entry st en (nextOrgStart ft.length rest) idx).1.length
        (emitAll ft sc dc rest
          (idx + (emitOrg ft sc dc a.entry st en (nextOrgStart ft.length rest)
            idx).1.length)).length 1
      simp only [Nat.one_mul] at this
      rw [this]
      congr 1
      omega

theorem emitAll_section_mem (ft : Str) (sc dc : Str → List (Nat × Nat)) :
    ∀ (asg : List AssignedOrg) (idx : Nat), ∀ it ∈ emitAll ft sc dc asg idx,
      ∃ a ∈ asg, ∃ st en, a.assigned = some (st, en) ∧ it.section_id = st := by
  intro asg
  induction asg with
  | nil => intro idx it hit; simp [emitAll] at hit
  | cons a rest ih =>
    intro idx it hit
    simp only [emitAll] at hit
    cases hasg : a.assigned with
    | none =>
      rw [hasg] at hit
      rcases ih idx it hit with ⟨a2, ha2, st, en, he, hs⟩
      exact ⟨a2, by simp [ha2], st, en, he, hs⟩
    | some q =>
      rcases q with ⟨st, en⟩
      rw [hasg] at hit
      rcases List.mem_append.1 hit with h | h
      · exact ⟨a, by simp, st, en, hasg,
          emitOrg_section ft sc dc a.entry st en (nextOrgStart ft.length rest)
            idx it h⟩
      · rcases ih _ it h with ⟨a2, ha2, st2, en2, he, hs⟩
        exact ⟨a2, by simp [ha2], st2, en2, he, hs⟩

theorem emitAll_pairwise (ft : Str) (sc dc : Str → List (Nat × Nat))
    (hws : ∀ p, ∀ h ∈ sc p, h.1 < h.2) (hwd : ∀ p, ∀ h ∈ dc p, h.1 < h.2) :
    ∀ (asg : List AssignedOrg) (idx : Nat), List.Pairwise AssignRel asg →
      List.Pairwise (fun x y : BodyItem =>
          x.section_id = y.section_id → x.slice_end ≤ y.slice_start)
        (emitAll ft sc dc asg idx) := by
  intro asg
  induction asg with
  | nil => intro idx _; simp [emitAll]
  | cons a rest ih =>
    intro idx hp
    rcases hp with _ | ⟨hrel, hrest⟩
    simp only [emitAll]
    cases hasg : a.assigned with
    | none => exact ih idx hrest
    | some q =>
      rcases q with ⟨st, en⟩
      rw [List.pairwise_append]
      refine ⟨?_, ih _ hrest, ?_⟩
      · exact (emitOrg_pairwise ft sc dc hws hwd a.entry st en
          (nextOrgStart ft.length rest) idx).imp
          (fun h => fun (_ : _ = _) => h)
      · intro x hx y hy
        have hxs := emitOrg_section ft sc dc a.entry st en
          (nextOrgStart ft.length rest) idx x hx
        rcases emitAll_section_mem ft sc dc rest _ y hy with
          ⟨a2, ha2, st2, en2, he2, hys⟩
        have hr := hrel a2 ha2 st en st2 en2 hasg he2
        intro heq
        omega

-- Concrete scenario used by the witnesses of claims C1 and C2: one body
-- text with two ORG headings and three document labels.
def wText : Str :=
  strOf ("SECRETARIA UM\nAVISO A\nAVISO B\nSECRETARIA DOIS\nAVISO C\n")

def wRoster : List RosterOrg :=
  [⟨strOf ("SECRETARIA UM"), [], [strOf ("AVISO A"), strOf ("AVISO B")]⟩,
   ⟨strOf ("SECRETARIA DOIS"), [], [strOf ("AVISO C")]⟩]

/-- Claim C1: for every roster and body text, the BodyItems returned by
build_body_via_sumario_spacy carry order_index values 1, 2, 3, ... with no
gaps or repeats, and any two BodyItems sharing a section_id have
non-overlapping slices ordered by order_index (the earlier slice ends at
or before the later one starts). -/
theorem C1_bodyitem_ordering (ft : Str) (orgs : List RosterOrg) :
    (buildBodyViaSumarioSpacy ft orgs).map (fun b => b.order_index) =
      List.range' 1 (buildBodyViaSumarioSpacy ft orgs).length ∧
    List.Pairwise
      (fun x y : BodyItem =>
        x.section_id = y.section_id → x.slice_end ≤ y.slice_start)
      (buildBodyViaSumarioSpacy ft orgs) := by
  constructor
  · exact emitAll_order ft _ _ _ 1
  · exact emitAll_pairwise ft _ _ (capsCandsOf_wf ft) (docCandsOf_wf ft) _ 1
      (assignOrgs_pairwise _ (capsCandsOf_wf ft) orgs 0)

/-- Claim C1, witness: on the concrete two-ORG scenario, the first two
returned BodyItems share a section and the first slice ends where the
second starts. -/
theorem C1_bodyitem_ordering_witness :
    ((buildBodyViaSumarioSpacy wText wRoster).get ⟨0, by decide⟩).slice_end ≤
      ((buildBodyViaSumarioSpacy wText wRoster).get ⟨1, by decide⟩).slice_start := by
  have h := (C1_bodyitem_ordering wText wRoster).2
  exact List.pairwise_iff_get.1 h ⟨0, by decide⟩ ⟨1, by decide⟩ (by decide)
    (by decide)

/-- Claim C2: the re-anchorer processes roster ORGs in roster order with a
single monotonically increasing cursor: the per-ORG choice is the first
candidate hit at or past the cursor (find?), the i-th assignment pairs the
i-th roster entry with that choice from the cursor left by the first i
entries, an unassigned ORG contributes no BodyItems (its whole subtree is
skipped by the emission loop), and assigned spans are pairwise
non-overlapping and in roster order. -/
theorem C2_cursor_assignment (ft : Str) (orgs : List RosterOrg) :
    (∀ (c : Nat) (l : List (Nat × Nat)),
      chooseHit c l = l.find? (fun h => decide (c ≤ h.1))) ∧
    (∀ i : Nat, (assignOrgs (capsCandsOf ft) orgs 0)[i]? =
      (orgs[i]?).map (fun b =>
        ⟨b, chooseHit (cursorAfter (capsCandsOf ft) (orgs.take i) 0)
          (capsCandsOf ft b.org_text)⟩)) ∧
    (∀ (a : AssignedOrg) (rest : List AssignedOrg) (idx : Nat),
      a.assigned = none →
      emitAll ft (capsCandsOf ft) (docCandsOf ft) (a :: rest) idx =
        emitAll ft (capsCandsOf ft) (docCandsOf ft) rest idx) ∧
    List.Pairwise AssignRel (assignOrgs (capsCandsOf ft) orgs 0) := by
  refine ⟨chooseHit_eq_find?, assignOrgs_get? _ orgs 0, ?_, ?_⟩
  · intro a rest idx ha
    simp [emitAll, ha]
  · exact assignOrgs_pairwise _ (capsCandsOf_wf ft) orgs 0

/-- Claim C2, witness: on the concrete scenario the two assigned ORG spans
are (0, 13) and (30, 45): the first ends before the second starts and the
starts are in roster order. -/
theorem C2_cursor_assignment_witness : (13 : Nat) ≤ 30 ∧ (0 : Nat) < 30 := by
  have h := (C2_cursor_assignment wText wRoster).2.2.2
  have h2 := List.pairwise_iff_get.1 h ⟨0, by decide⟩ ⟨1, by decide⟩
    (by decide)
  exact h2 0 13 30 45 (by decide) (by decide)

/-- Claim C8: an ORG assigned a span whose section yields no DOC
assignment (even after the 120-character look-back retry) and no SUBORG
assignment produces exactly zero BodyItems; the emission is a total
function, so no exception is possible. -/
theorem C8_no_docs_no_subs_zero_items (ft : Str) (entry : RosterOrg)
    (orgSt orgEn sectionEnd idx : Nat)
    (hdoc : orgDocAssignsFinal (docCandsOf ft) entry orgEn sectionEnd = [])
    (hsub : orgSubAssigns (capsCandsOf ft) entry orgSt sectionEnd = []) :
    emitOrg ft (capsCandsOf ft) (docCandsOf ft) entry orgSt orgEn sectionEnd
      idx = ([], idx) := by
  unfold emitOrg
  rw [hdoc, hsub]

def w8Text : Str := strOf ("SECRETARIA UM\nsem nada util\n")

def w8Entry : RosterOrg := ⟨strOf ("SECRETARIA UM"), [], [strOf ("AVISO Q")]⟩

/-- Claim C8, witness: a body whose single ORG matches but whose quoted
DOC phrase does not appear produces no items for that ORG. -/
theorem C8_no_docs_no_subs_zero_items_witness :
    emitOrg w8Text (capsCandsOf w8Text) (docCandsOf w8Text) w8Entry 0 13 28
      1 = ([], 1) :=
  C8_no_docs_no_subs_zero_items w8Text w8Entry 0 13 28 1 (by decide)
    (by decide)

-- ---------------------------------------------------------------------
-- segmenter.py: entity ordering, Summary/Body cut, orphan merging
-- ---------------------------------------------------------------------

/-- One detected entity span, as the segmenter and relation builder see
it: character offsets, label, covered text. -/
structure Ent where
  start_char : Nat
  end_char : Nat
  label : String
  text : Str
deriving DecidableEq

/-- The (start_char, -end_char) sort key of `_ents_in_order` and of
build_relations. -/
def entLt (a b : Ent) : Bool :=
  decide (a.start_char < b.start_char) ||
    (decide (a.start_char = b.start_char) && decide (b.end_char < a.end_char))

def pyUpperStr (s : Str) : Str := s.map pyUpperN

/-- Model of `_strip_diacritics`: full NFKD followed by dropping combining
marks.  NFKD performs the compatibility decompositions (NBSP to space, the
ordinal indicators to a and o, the ellipsis to three dots, the fi ligature
to f i) and splits each precomposed Latin-1 letter into its base letter
plus a combining mark, which is then dropped; letters without a
decomposition (such as ß) stay. -/
def stripDiaKD (s : Str) : Str :=
  s.flatMap (fun c => (nfkcN c).map stripDiaN)

/-- Model of `_norm_org_tokens`: collapse whitespace, strip diacritics,
uppercase, strip the trailing punctuation set, split into tokens. -/
def normOrgTokens (s : Str) : List Str :=
  pySplitWs
    (pyStripChars (strOf (",.;:")) (pyUpperStr (stripDiaKD (collapseWs s))))

/-- Model of `_is_token_prefix` with min_shared tokens. -/
def isTokenPref (a b : List Str) (minShared : Nat) : Bool :=
  if a = [] ∨ b = [] then false
  else if min a.length b.length < minShared then false
  else decide (a.take (min a.length b.length) = b.take (min a.length b.length))

/-- The scan of `_find_body_start_with_first_repeated_org`: walk the
sorted entities, keep the token lists of the ORGs seen so far, and stop at
the first ORG related to a previously seen one by the 5-token prefix
test. -/
def findBodyStartAux (textLen : Nat) :
    List (List Str × Nat) → List Ent → Nat
  | _, [] => textLen
  | seen, e :: rest =>
    if e.label ≠ (r"ORG") then findBodyStartAux textLen seen rest
    else
      if seen.any (fun p =>
          isTokenPref (normOrgTokens e.text) p.1 5 ||
            isTokenPref p.1 (normOrgTokens e.text) 5) then
        e.start_char
      else
        findBodyStartAux textLen
          (seen ++ [(normOrgTokens e.text, e.start_char)]) rest

def findBodyStart (textLen : Nat) (ents : List Ent) : Nat :=
  findBodyStartAux textLen [] (sortByLt entLt ents)

/-- The ORG token lists of an entity list, in scan order. -/
def orgTokenLists (ents : List Ent) : List (List Str) :=
  ents.filterMap (fun e =>
    if e.label = (r"ORG") then some (normOrgTokens e.text) else none)

theorem findBodyStartAux_none (L : Nat) :
    ∀ (es : List Ent) (seen : List (List Str × Nat)),
      (∀ e ∈ es, e.label = (r"ORG") → ∀ p ∈ seen,
        ¬(isTokenPref (normOrgTokens e.text) p.1 5 = true ∨
          isTokenPref p.1 (normOrgTokens e.text) 5 = true)) →
      List.Pairwise (fun x y =>
        ¬(isTokenPref x y 5 = true ∨ isTokenPref y x 5 = true))
        (orgTokenLists es) →
      findBodyStartAux L seen es = L := by
  intro es
  induction es with
  | nil => intro seen _ _; rfl
  | cons e rest ih =>
    intro seen h1 h2
    simp only [findBodyStartAux]
    by_cases hl : e.label = (r"ORG")
    · rw [if_neg (by simp [hl])]
      have hany : (seen.any (fun p =>
          isTokenPref (normOrgTokens e.text) p.1 5 ||
            isTokenPref p.1 (normOrgTokens e.text) 5)) = false := by
        rw [List.any_eq_false]
        intro p hp
        have := h1 e (by simp) hl p hp
        simp only [Bool.or_eq_true] at *
        tauto
      rw [hany]
      simp only [Bool.false_eq_true, if_false]
      have h2' : List.Pairwise (fun x y =>
          ¬(isTokenPref x y 5 = true ∨ isTokenPref y x 5 = true))
          (orgTokenLists (e :: rest)) := h2
      unfold orgTokenLists at h2'
      simp only [List.filterMap_cons, hl, if_true, reduceIte] at h2'
      rcases h2' with _ | ⟨hrel, hrest⟩
      apply ih
      · intro e2 he2 hl2 p hp
        rcases List.mem_append.1 hp with hp1 | hp2
        · exact h1 e2 (by simp [he2]) hl2 p hp1
        · simp only [List.mem_singleton] at hp2
          subst hp2
          have := hrel (normOrgTokens e2.text)
            (List.mem_filterMap.2 ⟨e2, he2, by simp [hl2]⟩)
          simp only at this ⊢
          tauto
      · exact hrest
    · rw [if_pos (by simp [hl])]
      apply ih
      · intro e2 he2 hl2 p hp
        exact h1 e2 (by simp [he2]) hl2 p hp
      · have h2' := h2
        unfold orgTokenLists at h2' ⊢
        simp only [List.filterMap_cons, hl, if_false, reduceIte] at h2'
        exact h2'

theorem isTokenPref_self (x : List Str) (hx : x.length = 5) :
    isTokenPref x x 5 = true := by
  have hne : x ≠ [] := by
    intro h
    rw [h] at hx
    simp at hx
  unfold isTokenPref
  rw [if_neg (by simp [hne]), if_neg (by simp [hx])]
  simp

theorem findBodyStart_two_verbatim (L a b e1 e2 : Nat) (t : Str)
    (hab : a < b) (htok : (normOrgTokens t).length = 5) :
    findBodyStart L
      [⟨a, e1, (r"ORG"), t⟩, ⟨b, e2, (r"ORG"), t⟩] = b := by
  have hself := isTokenPref_self (normOrgTokens t) htok
  have h1 : entLt ⟨b, e2, (r"ORG"), t⟩ ⟨a, e1, (r"ORG"), t⟩ = false := by
    simp only [entLt, Bool.or_eq_false_iff, Bool.and_eq_false_iff,
      decide_eq_false_iff_not]
    omega
  unfold findBodyStart
  rw [show sortByLt entLt [⟨a, e1, (r"ORG"), t⟩, ⟨b, e2, (r"ORG"), t⟩] =
      [⟨a, e1, (r"ORG"), t⟩, ⟨b, e2, (r"ORG"), t⟩] from by
    simp [sortByLt, insStable, h1]]
  simp [findBodyStartAux, hself]

/-- The ORG subsequence of the entities in (start, -end) order, as the
scan of _find_body_start_with_first_repeated_org visits them. -/
def orgsOf (ents : List Ent) : List Ent :=
  (sortByLt entLt ents).filter (fun e => e.label == (r"ORG"))

/-- Whether the k-th ORG of the scan qualifies as the repeat: its token
list is prefix-related (at least 5 shared tokens) to a token list in
seenT or to the token list of an earlier ORG. -/
def qualSeen (seenT : List (List Str)) (orgs : List Ent) (k : Nat) : Bool :=
  match orgs.get? k with
  | none => false
  | some e =>
    (seenT ++ (orgs.take k).map (fun p => normOrgTokens p.text)).any
      (fun t => isTokenPref (normOrgTokens e.text) t 5 ||
        isTokenPref t (normOrgTokens e.text) 5)

/-- Whether the k-th ORG's token list is prefix-related (at least 5
shared tokens) to an earlier ORG's token list. -/
def qualAt (orgs : List Ent) (k : Nat) : Bool := qualSeen [] orgs k

theorem qualSeen_zero (seenT : List (List Str)) (e : Ent) (orgs : List Ent) :
    qualSeen seenT (e :: orgs) 0
      = seenT.any (fun t =>
          isTokenPref (normOrgTokens e.text) t 5 ||
          isTokenPref t (normOrgTokens e.text) 5) := by
  unfold qualSeen
  simp

theorem qualSeen_succ (seenT : List (List Str)) (e : Ent) (orgs : List Ent)
    (k : Nat) :
    qualSeen seenT (e :: orgs) (k + 1)
      = qualSeen (seenT ++ [normOrgTokens e.text]) orgs k := by
  unfold qualSeen
  cases h : orgs.get? k with
  | none =>
    have h2 : orgs[k]? = none := by
      rw [← List.get?_eq_getElem?]
      exact h
    simp [h2]
  | some e2 =>
    have h2 : orgs[k]? = some e2 := by
      rw [← List.get?_eq_getElem?]
      exact h
    simp [h2, List.take_succ_cons, List.append_assoc]

theorem any_map_fst (seen : List (List Str × Nat)) (p : List Str → Bool) :
    (seen.map Prod.fst).any p = seen.any (fun q => p q.1) := by
  induction seen with
  | nil => rfl
  | cons a l ih => simp [List.any_cons, ih]

/-- Full characterization of the scan: with the token lists in seen
already collected, the result is the start offset of the first
qualifying ORG, or the default when none qualifies. -/
theorem findBodyStartAux_spec (L : Nat) :
    ∀ (es : List Ent) (seen : List (List Str × Nat)),
      ((∀ k, qualSeen (seen.map Prod.fst)
          (es.filter (fun e => e.label == (r"ORG"))) k = false) →
        findBodyStartAux L seen es = L) ∧
      (∀ k e, qualSeen (seen.map Prod.fst)
            (es.filter (fun e => e.label == (r"ORG"))) k = true →
        (∀ k', k' < k → qualSeen (seen.map Prod.fst)
            (es.filter (fun e => e.label == (r"ORG"))) k' = false) →
        (es.filter (fun e => e.label == (r"ORG"))).get? k = some e →
        findBodyStartAux L seen es = e.start_char) := by
  intro es
  induction es with
  | nil =>
    intro seen
    refine ⟨fun _ => rfl, ?_⟩
    intro k e _ _ hget
    simp at hget
  | cons e0 rest ih =>
    intro seen
    by_cases hl : e0.label = (r"ORG")
    · have hfe : (e0 :: rest).filter (fun e => e.label == (r"ORG"))
          = e0 :: rest.filter (fun e => e.label == (r"ORG")) := by
        simp [List.filter_cons, hl]
      by_cases hany : (seen.any (fun p =>
          isTokenPref (normOrgTokens e0.text) p.1 5 ||
            isTokenPref p.1 (normOrgTokens e0.text) 5)) = true
      · have hstep : findBodyStartAux L seen (e0 :: rest) = e0.start_char := by
          simp only [findBodyStartAux]
          rw [if_neg (by simp [hl]), if_pos hany]
        have hq0 : qualSeen (seen.map Prod.fst)
            ((e0 :: rest).filter (fun e => e.label == (r"ORG"))) 0 = true := by
          rw [hfe, qualSeen_zero, any_map_fst]
          exact hany
        constructor
        · intro hall
          exact absurd hq0 (by simp [hall 0])
        · intro k e hq hmin hget
          cases k with
          | zero =>
            rw [hfe] at hget
            have he : e0 = e := by simpa using hget
            rw [hstep, he]
          | succ k =>
            exact absurd hq0 (by simp [hmin 0 (Nat.succ_pos k)])
      · have hstep : findBodyStartAux L seen (e0 :: rest)
            = findBodyStartAux L
                (seen ++ [(normOrgTokens e0.text, e0.start_char)]) rest := by
          simp only [findBodyStartAux]
          rw [if_neg (by simp [hl]), if_neg hany]
        have hmap : ((seen ++ [(normOrgTokens e0.text, e0.start_char)]).map
            Prod.fst) = seen.map Prod.fst ++ [normOrgTokens e0.text] := by
          simp
        obtain ⟨ih1, ih2⟩ := ih (seen ++ [(normOrgTokens e0.text, e0.start_char)])
        rw [hmap] at ih1 ih2
        rw [hstep, hfe]
        constructor
        · intro hall
          apply ih1
          intro k
          rw [← qualSeen_succ]
          exact hall (k + 1)
        · intro k e hq hmin hget
          cases k with
          | zero =>
            rw [qualSeen_zero, any_map_fst] at hq
            exact absurd hq hany
          | succ k =>
            apply ih2 k e
            · rw [← qualSeen_succ]
              exact hq
            · intro k' hk'
              rw [← qualSeen_succ]
              exact hmin (k' + 1) (by omega)
            · simpa using hget
    · have hfe : (e0 :: rest).filter (fun e => e.label == (r"ORG"))
          = rest.filter (fun e => e.label == (r"ORG")) := by
        simp [List.filter_cons, hl]
      have hstep : findBodyStartAux L seen (e0 :: rest)
          = findBodyStartAux L seen rest := by
        simp only [findBodyStartAux]
        rw [if_pos (by simp [hl])]
      obtain ⟨ih1, ih2⟩ := ih seen
      rw [hstep, hfe]
      exact ⟨ih1, ih2⟩

/-- Claim C3: the Summary/Body cut of the segmenter.  Walking the ORG
spans in (start, -end) order, the cut is the start offset of the FIRST
ORG whose normalized token list is a prefix of, or is prefixed by, some
previously seen ORG's token list with at least 5 shared tokens; if no
ORG qualifies, the cut is the full text length (the whole document is
Summary). -/
theorem C3_summary_body_cut (L : Nat) (ents : List Ent) :
    ((∀ k, qualAt (orgsOf ents) k = false) → findBodyStart L ents = L) ∧
    (∀ k e, qualAt (orgsOf ents) k = true →
      (∀ k', k' < k → qualAt (orgsOf ents) k' = false) →
      (orgsOf ents).get? k = some e →
      findBodyStart L ents = e.start_char) :=
  findBodyStartAux_spec L (sortByLt entLt ents) []

def secretariaStr : Str := strOf ("SECRETARIA REGIONAL DOS RECURSOS HUMANOS")

/-- Claim C3, witness: the 5-token scenario heading repeated verbatim at
offsets 0 and 300 makes the second occurrence the first qualifying ORG,
so the cut is 300. -/
theorem C3_summary_body_cut_witness :
    findBodyStart 500
      [⟨0, 40, (r"ORG"), secretariaStr⟩,
       ⟨300, 340, (r"ORG"), secretariaStr⟩] = 300 :=
  (C3_summary_body_cut 500
      [⟨0, 40, (r"ORG"), secretariaStr⟩,
       ⟨300, 340, (r"ORG"), secretariaStr⟩]).2 1
    ⟨300, 340, (r"ORG"), secretariaStr⟩ (by decide) (by decide) (by decide)

-- Orphan merging (claim C7)

/-- Model of `_merge_orphan_orgs`: an entry without suborgs and docs is
merged as a text prefix into the next entry, both being consumed. -/
def mergeOrphanOrgs : List RosterOrg → List RosterOrg
  | [] => []
  | [o] => [o]
  | o1 :: o2 :: rest =>
    if o1.suborg_texts = [] ∧ o1.doc_texts = [] then
      ⟨collapseWs (o1.org_text ++ 32 :: o2.org_text), o2.suborg_texts,
        o2.doc_texts⟩ :: mergeOrphanOrgs rest
    else o1 :: mergeOrphanOrgs (o2 :: rest)

def c7foo : RosterOrg := ⟨strOf ("FOO"), [], []⟩

def c7baz : RosterOrg := ⟨strOf ("BAZ"), [], []⟩

def c7bar : RosterOrg := ⟨strOf ("BAR"), [strOf ("SUB A")], [strOf ("DOC X")]⟩

/-- Claim C7, counterexample: in the roster FOO, BAZ, BAR where FOO and
BAZ are both orphans, BAZ is an orphan entry followed by BAR, yet the
merged roster keeps BAR unchanged and contains no entry BAZ BAR: the pass
consumes FOO and BAZ together and never re-examines the merged entry, so
the claimed merge of every orphan into its successor fails here. -/
theorem C7_merge_orphan_counterexample :
    (c7baz.suborg_texts = [] ∧ c7baz.doc_texts = []) ∧
    mergeOrphanOrgs [c7foo, c7baz, c7bar] =
      [⟨strOf ("FOO BAZ"), [], []⟩, c7bar] ∧
    ∀ o ∈ mergeOrphanOrgs [c7foo, c7baz, c7bar],
      o.org_text ≠ strOf ("BAZ BAR") := by
  decide

/-- Claim C7, amended: the merge walks the list left to right; whenever
the current entry is an orphan and another entry follows, the pair is
replaced by one entry whose org_text is the whitespace-collapsed
concatenation and which carries the next entry's payload; the merged entry
is not itself re-examined, so a consumed orphan successor is not merged
again.  Scenario 3 (FOO orphan followed by BAR) is the singleton case. -/
theorem C7_merge_orphan_amended (o1 o2 : RosterOrg) (rest : List RosterOrg)
    (h : o1.suborg_texts = [] ∧ o1.doc_texts = []) :
    mergeOrphanOrgs (o1 :: o2 :: rest) =
      ⟨collapseWs (o1.org_text ++ 32 :: o2.org_text), o2.suborg_texts,
        o2.doc_texts⟩ :: mergeOrphanOrgs rest := by
  simp [mergeOrphanOrgs, h.1, h.2]

/-- Claim C7, witness: Scenario 3 of the spec, FOO orphan followed by BAR,
merges into the single entry FOO BAR carrying BAR's payload. -/
theorem C7_merge_orphan_amended_witness :
    mergeOrphanOrgs [c7foo, c7bar] =
      [⟨strOf ("FOO BAR"), c7bar.suborg_texts, c7bar.doc_texts⟩] := by
  rw [C7_merge_orphan_amended c7foo c7bar [] ⟨rfl, rfl⟩]
  decide

-- ---------------------------------------------------------------------
-- relations.py: build_relations
-- ---------------------------------------------------------------------

/-- Model of the `_norm` helper of build_relations: collapse whitespace,
strip, uppercase, strip trailing punctuation. -/
def relNorm (s : Str) : Str :=
  pyStripChars (strOf (",.;:")) (pyUpperStr (pyStripWs (collapseWs s)))

/-- One relation edge as appended to doc._.relations. -/
structure RelEdge where
  id : Nat
  headText : Str
  headLabel : String
  tailText : Str
  tailLabel : String
  relation : String
  headStart : Nat
  headEnd : Nat
  tailStart : Nat
  tailEnd : Nat
  section_id : Option Nat
  source_rule : String
deriving DecidableEq

/-- The loop state of build_relations. -/
structure RelState where
  currentOrg : Option Ent
  lastSuborg : Option Ent
  lastOrgByNorm : List (Str × Ent)
  edgeId : Nat
deriving DecidableEq

/-- One iteration of the entity loop of build_relations, returning the
new state and the edges appended by this entity. -/
def relStep (st : RelState) (e : Ent) : RelState × List RelEdge :=
  if e.label = (r"ORG") then
    match st.lastOrgByNorm.lookup (relNorm e.text) with
    | some prev =>
      if prev.start_char ≠ e.start_char then
        ({ st with
            currentOrg := some e
            lastSuborg := none
            edgeId := st.edgeId + 1 },
         [⟨st.edgeId, prev.text, (r"ORG"), e.text, (r"ORG"), (r"SAME_AS"),
            prev.start_char, prev.end_char, e.start_char, e.end_char,
            some prev.start_char, (r"org_same_norm")⟩])
      else ({ st with currentOrg := some e, lastSuborg := none }, [])
    | none =>
      ({ st with
          currentOrg := some e
          lastSuborg := none
          lastOrgByNorm := st.lastOrgByNorm ++ [(relNorm e.text, e)] }, [])
  else if e.label = (r"ORG_SECUNDARIA") then
    match st.currentOrg with
    | some co =>
      ({ st with
          lastSuborg := some e
          edgeId := st.edgeId + 1 },
       [⟨st.edgeId, co.text, (r"ORG"), e.text, (r"ORG_SECUNDARIA"),
          (r"CONTAINS"), co.start_char, co.end_char, e.start_char,
          e.end_char, some co.start_char, (r"section_contains_suborg")⟩])
    | none => ({ st with lastSuborg := some e }, [])
  else if e.label = (r"DOC") then
    let step1 : RelState × List RelEdge :=
      match st.currentOrg with
      | some co =>
        ({ st with edgeId := st.edgeId + 1 },
         [⟨st.edgeId, co.text, (r"ORG"), e.text, (r"DOC"),
            (r"SECTION_ITEM"), co.start_char, co.end_char, e.start_char,
            e.end_char, some co.start_char, (r"section_item")⟩])
      | none => (st, [])
    match st.lastSuborg with
    | some su =>
      if (e.start_char : Int) - su.end_char ≤ 300 then
        ({ step1.1 with edgeId := step1.1.edgeId + 1 },
         step1.2 ++
           [⟨step1.1.edgeId, su.text, (r"ORG_SECUNDARIA"), e.text, (r"DOC"),
              (r"HAS_DOCUMENT"), su.start_char, su.end_char, e.start_char,
              e.end_char, (st.currentOrg.map (fun co => co.start_char)),
              (r"nearest_suborg_window")⟩])
      else step1
    | none => step1
  else (st, [])

/-- The entity loop of build_relations. -/
def relRun : RelState → List Ent → List RelEdge
  | _, [] => []
  | st, e :: rest => (relStep st e).2 ++ relRun (relStep st e).1 rest

/-- Model of build_relations: sort the entities by (start, -end) and run
the loop from the empty state. -/
def buildRelations (ents : List Ent) : List RelEdge :=
  relRun ⟨none, none, [], 1⟩ (sortByLt entLt ents)

/-- Claim C9: when build_relations processes a DOC entity, a SECTION_ITEM
edge is emitted if and only if a current ORG is set (regardless of
distance), a HAS_DOCUMENT edge is emitted if and only if a last suborg is
set and the DOC starts at most 300 characters after it ends, and every
edge emitted at this step is one of those two shapes with the stated head
and tail offsets. -/
theorem C9_doc_relations (st : RelState) (e : Ent) (h : e.label = (r"DOC")) :
    ((∃ ed ∈ (relStep st e).2, ed.relation = (r"SECTION_ITEM")) ↔
      st.currentOrg ≠ none) ∧
    ((∃ ed ∈ (relStep st e).2, ed.relation = (r"HAS_DOCUMENT")) ↔
      (∃ su, st.lastSuborg = some su ∧
        (e.start_char : Int) - su.end_char ≤ 300)) ∧
    (∀ ed ∈ (relStep st e).2,
      (ed.relation = (r"SECTION_ITEM") ∧
        ∃ co, st.currentOrg = some co ∧ ed.headStart = co.start_char ∧
          ed.headEnd = co.end_char ∧ ed.tailStart = e.start_char ∧
          ed.tailEnd = e.end_char) ∨
      (ed.relation = (r"HAS_DOCUMENT") ∧
        ∃ su, st.lastSuborg = some su ∧ ed.headStart = su.start_char ∧
          ed.headEnd = su.end_char ∧ ed.tailStart = e.start_char ∧
          ed.tailEnd = e.end_char)) := by
  rcases st with ⟨co, su, mp, eid⟩
  rcases co with _ | co <;> rcases su with _ | su
  · simp [relStep, h]
  · by_cases hd : (e.start_char : Int) - su.end_char ≤ 300
    · simp [relStep, h, hd]
      omega
    · simp [relStep, h, hd]
      omega
  · simp [relStep, h]
  · by_cases hd : (e.start_char : Int) - su.end_char ≤ 300
    · simp [relStep, h, hd]
      omega
    · simp [relStep, h, hd]
      omega

def w9Org : Ent := ⟨0, 10, (r"ORG"), strOf ("SEC A")⟩

def w9Sub : Ent := ⟨12, 20, (r"ORG_SECUNDARIA"), strOf ("CLUBE X")⟩

def w9Doc : Ent := ⟨22, 30, (r"DOC"), strOf ("AVISO")⟩

/-- Claim C9, witness: with a current ORG and a near suborg both set, the DOC
step emits a SECTION_ITEM and a HAS_DOCUMENT edge. -/
theorem C9_doc_relations_witness :
    (∃ ed ∈ (relStep ⟨some w9Org, some w9Sub, [], 3⟩ w9Doc).2,
      ed.relation = (r"SECTION_ITEM")) ∧
    (∃ ed ∈ (relStep ⟨some w9Org, some w9Sub, [], 3⟩ w9Doc).2,
      ed.relation = (r"HAS_DOCUMENT")) :=
  ⟨((C9_doc_relations ⟨some w9Org, some w9Sub, [], 3⟩ w9Doc (by decide)).1).2
      (by decide),
    ((C9_doc_relations ⟨some w9Org, some w9Sub, [], 3⟩ w9Doc
        (by decide)).2.1).2 ⟨w9Sub, rfl, by decide⟩⟩


-- ---------------------------------------------------------------------
-- C10: SAME_AS heads are always the first occurrence
-- ---------------------------------------------------------------------

/-- An entity is an ORG whose normalized text is t. -/
def isOrgT (t : Str) (e : Ent) : Bool :=
  e.label == (r"ORG") && relNorm e.text == t

/-- The SAME_AS edges of the normalized-text group t among a list of
edges (a SAME_AS head is always a stored map value, whose text
normalizes to its key). -/
def sameEdges (t : Str) (es : List RelEdge) : List RelEdge :=
  es.filter (fun ed => decide (ed.relation = (r"SAME_AS") ∧ relNorm ed.headText = t))

/-- last_org_by_norm well-formedness: each stored key is the
normalization of the stored entity's text. -/
def mapWF (st : RelState) : Prop :=
  ∀ q ∈ st.lastOrgByNorm, q.1 = relNorm q.2.text

theorem sameEdges_append (t : Str) (a b : List RelEdge) :
    sameEdges t (a ++ b) = sameEdges t a ++ sameEdges t b :=
  List.filter_append _ _

theorem lookup_append_some {l : List (Str × Ent)} {t : Str} {p : Ent}
    (h : l.lookup t = some p) (k : Str) (v : Ent) :
    (l ++ [(k, v)]).lookup t = some p := by
  induction l with
  | nil => simp [List.lookup] at h
  | cons a l ih =>
    rcases a with ⟨ka, va⟩
    cases hb : (t == ka) with
    | false =>
      simp only [List.cons_append, List.lookup, hb] at h ⊢
      exact ih h
    | true =>
      simp only [List.cons_append, List.lookup, hb] at h ⊢
      exact h

theorem lookup_append_none {l : List (Str × Ent)} {t : Str}
    (h : l.lookup t = none) (k : Str) (v : Ent) :
    (l ++ [(k, v)]).lookup t = List.lookup t [(k, v)] := by
  induction l with
  | nil => simp
  | cons a l ih =>
    rcases a with ⟨ka, va⟩
    cases hb : (t == ka) with
    | false =>
      simp only [List.cons_append, List.lookup, hb] at h ⊢
      exact ih h
    | true =>
      simp only [List.lookup, hb] at h
      exact absurd h (by simp)

theorem lookup_wf_key {l : List (Str × Ent)}
    (hw : ∀ q ∈ l, q.1 = relNorm q.2.text) {t : Str} {p : Ent}
    (h : l.lookup t = some p) : relNorm p.text = t := by
  induction l with
  | nil => simp [List.lookup] at h
  | cons a l ih =>
    rcases a with ⟨ka, va⟩
    cases hb : (t == ka) with
    | false =>
      simp only [List.lookup, hb] at h
      exact ih (fun q hq => hw q (List.mem_cons_of_mem _ hq)) h
    | true =>
      simp only [List.lookup, hb] at h
      have hk : ka = relNorm va.text := hw (ka, va) (List.mem_cons_self _ _)
      have htk : t = ka := by simpa using hb
      obtain rfl : va = p := by simpa using h
      rw [← hk]
      exact htk.symm

theorem relStep_map (st : RelState) (e : Ent) :
    (relStep st e).1.lastOrgByNorm = st.lastOrgByNorm ∨
    (e.label = (r"ORG") ∧
      st.lastOrgByNorm.lookup (relNorm e.text) = none ∧
      (relStep st e).1.lastOrgByNorm
        = st.lastOrgByNorm ++ [(relNorm e.text, e)]) := by
  rcases st with ⟨co, su, mp, eid⟩
  by_cases h1 : e.label = (r"ORG")
  · cases hl : List.lookup (relNorm e.text) mp with
    | none =>
      right
      exact ⟨h1, rfl, by simp [relStep, h1, hl]⟩
    | some prev =>
      left
      by_cases hs : prev.start_char ≠ e.start_char <;>
        simp [relStep, h1, hl, hs]
  · by_cases h2 : e.label = (r"ORG_SECUNDARIA")
    · left
      rcases co with _ | co2 <;> simp [relStep, h1, h2]
    · by_cases h3 : e.label = (r"DOC")
      · left
        rcases co with _ | co2 <;> rcases su with _ | su2 <;>
          simp [relStep, h1, h2, h3] <;> (try split) <;> rfl
      · left
        simp [relStep, h1, h2, h3]

theorem relStep_mapWF {st : RelState} (e : Ent) (hw : mapWF st) :
    mapWF (relStep st e).1 := by
  rcases relStep_map st e with hm | ⟨_, _, hm⟩
  · intro q hq
    rw [hm] at hq
    exact hw q hq
  · intro q hq
    rw [hm] at hq
    rcases List.mem_append.1 hq with h' | h'
    · exact hw q h'
    · rw [List.mem_singleton.1 h']

theorem relStep_lookup_some {st : RelState} {t : Str} {p : Ent} (e : Ent)
    (h : st.lastOrgByNorm.lookup t = some p) :
    (relStep st e).1.lastOrgByNorm.lookup t = some p := by
  rcases relStep_map st e with hm | ⟨_, _, hm⟩
  · rw [hm]; exact h
  · rw [hm]; exact lookup_append_some h _ _

theorem relStep_lookup_none {st : RelState} {t : Str} (e : Ent)
    (h : st.lastOrgByNorm.lookup t = none) (hne : isOrgT t e = false) :
    (relStep st e).1.lastOrgByNorm.lookup t = none := by
  rcases relStep_map st e with hm | ⟨horg, _, hm⟩
  · rw [hm]; exact h
  · have ht : relNorm e.text ≠ t := by
      intro hEq
      simp [isOrgT, horg, hEq] at hne
    have hbf : (t == relNorm e.text) = false :=
      beq_eq_false_iff_ne.2 (fun hEq => ht hEq.symm)
    rw [hm, lookup_append_none h]
    simp [List.lookup, hbf]

theorem relStep_org_first {st : RelState} {t : Str} (e : Ent)
    (ho : isOrgT t e = true) (h : st.lastOrgByNorm.lookup t = none) :
    (relStep st e).1.lastOrgByNorm.lookup t = some e ∧
      (relStep st e).2 = [] := by
  rcases st with ⟨co, su, mp, eid⟩
  simp only [isOrgT, Bool.and_eq_true, beq_iff_eq] at ho
  obtain ⟨h1, ht⟩ := ho
  constructor
  · have hm : (relStep ⟨co, su, mp, eid⟩ e).1.lastOrgByNorm
        = mp ++ [(relNorm e.text, e)] := by
      simp [relStep, h1, ht, h]
    rw [hm, ht, lookup_append_none h]
    simp [List.lookup]
  · simp [relStep, h1, ht, h]

theorem relStep_org_again {st : RelState} {t : Str} {p : Ent} (e : Ent)
    (hw : mapWF st) (ho : isOrgT t e = true)
    (h : st.lastOrgByNorm.lookup t = some p)
    (hs : p.start_char ≠ e.start_char) :
    sameEdges t (relStep st e).2
      = [⟨st.edgeId, p.text, (r"ORG"), e.text, (r"ORG"), (r"SAME_AS"),
          p.start_char, p.end_char, e.start_char, e.end_char,
          some p.start_char, (r"org_same_norm")⟩] := by
  rcases st with ⟨co, su, mp, eid⟩
  simp only [isOrgT, Bool.and_eq_true, beq_iff_eq] at ho
  obtain ⟨h1, ht⟩ := ho
  have hpt : relNorm p.text = t := lookup_wf_key hw h
  simp [relStep, h1, ht, h, hs, sameEdges, hpt]

theorem relStep_edges_other {st : RelState} {t : Str} (e : Ent)
    (hw : mapWF st) (hne : isOrgT t e = false) :
    sameEdges t (relStep st e).2 = [] := by
  rcases st with ⟨co, su, mp, eid⟩
  by_cases h1 : e.label = (r"ORG")
  · have ht : relNorm e.text ≠ t := by
      intro hEq
      simp [isOrgT, h1, hEq] at hne
    cases hl : List.lookup (relNorm e.text) mp with
    | none => simp [relStep, h1, hl, sameEdges]
    | some prev =>
      have hpt : relNorm prev.text = relNorm e.text := lookup_wf_key hw hl
      by_cases hs : prev.start_char ≠ e.start_char
      · simp [relStep, h1, hl, hs, sameEdges, hpt, ht]
      · simp [relStep, h1, hl, hs, sameEdges]
  · by_cases h2 : e.label = (r"ORG_SECUNDARIA")
    · rcases co with _ | co2 <;> simp [relStep, h1, h2, sameEdges]
    · by_cases h3 : e.label = (r"DOC")
      · rcases co with _ | co2 <;> rcases su with _ | su2 <;>
          simp [relStep, h1, h2, h3, sameEdges] <;>
          (try split) <;> simp
      · simp [relStep, h1, h2, h3, sameEdges]

theorem relRun_phase_some (t : Str) (p : Ent) (rest : List Ent) :
    ∀ (st : RelState), mapWF st →
      st.lastOrgByNorm.lookup t = some p →
      (∀ e ∈ rest, isOrgT t e = true → e.start_char ≠ p.start_char) →
      (sameEdges t (relRun st rest)).length
          = (rest.filter (isOrgT t)).length ∧
      ∀ ed ∈ sameEdges t (relRun st rest),
        ed.headStart = p.start_char ∧ ed.headEnd = p.end_char := by
  induction rest with
  | nil =>
    intro st hw hl hd
    simp [relRun, sameEdges]
  | cons e rest ih =>
    intro st hw hl hd
    have hcons : relRun st (e :: rest)
        = (relStep st e).2 ++ relRun (relStep st e).1 rest := rfl
    have hw' : mapWF (relStep st e).1 := relStep_mapWF e hw
    have hl' : (relStep st e).1.lastOrgByNorm.lookup t = some p :=
      relStep_lookup_some e hl
    have hd' : ∀ e' ∈ rest, isOrgT t e' = true → e'.start_char ≠ p.start_char :=
      fun e' he' => hd e' (List.mem_cons_of_mem _ he')
    obtain ⟨ih1, ih2⟩ := ih (relStep st e).1 hw' hl' hd'
    cases ho : isOrgT t e with
    | false =>
      have hz : sameEdges t (relStep st e).2 = [] :=
        relStep_edges_other e hw ho
      rw [hcons, sameEdges_append, hz, List.nil_append]
      refine ⟨?_, ih2⟩
      rw [ih1]
      simp [List.filter_cons, ho]
    | true =>
      have hne : e.start_char ≠ p.start_char :=
        hd e (List.mem_cons_self _ _) ho
      have hone := relStep_org_again e hw ho hl (fun hEq => hne hEq.symm)
      rw [hcons, sameEdges_append, hone]
      constructor
      · simp [List.filter_cons, ho, ih1]
      · intro ed hed
        rcases List.mem_append.1 hed with h' | h'
        · rw [List.mem_singleton.1 h']
          exact ⟨rfl, rfl⟩
        · exact ih2 ed h'

theorem relRun_phase_none (t : Str) (rest : List Ent) :
    ∀ (st : RelState), mapWF st →
      st.lastOrgByNorm.lookup t = none →
      (rest.filter (isOrgT t)).Pairwise
        (fun a b => a.start_char ≠ b.start_char) →
      (sameEdges t (relRun st rest)).length
          = (rest.filter (isOrgT t)).length - 1 ∧
      ∀ ed ∈ sameEdges t (relRun st rest),
        ∃ first, (rest.filter (isOrgT t)).head? = some first ∧
          ed.headStart = first.start_char ∧ ed.headEnd = first.end_char := by
  induction rest with
  | nil =>
    intro st hw hl hp
    simp [relRun, sameEdges]
  | cons e rest ih =>
    intro st hw hl hp
    have hcons : relRun st (e :: rest)
        = (relStep st e).2 ++ relRun (relStep st e).1 rest := rfl
    cases ho : isOrgT t e with
    | false =>
      have hz : sameEdges t (relStep st e).2 = [] :=
        relStep_edges_other e hw ho
      have hw' : mapWF (relStep st e).1 := relStep_mapWF e hw
      have hl' : (relStep st e).1.lastOrgByNorm.lookup t = none :=
        relStep_lookup_none e hl ho
      have hp' : (rest.filter (isOrgT t)).Pairwise
          (fun a b => a.start_char ≠ b.start_char) := by
        simpa [List.filter_cons, ho] using hp
      obtain ⟨ih1, ih2⟩ := ih (relStep st e).1 hw' hl' hp'
      rw [hcons, sameEdges_append, hz, List.nil_append]
      constructor
      · rw [ih1]
        simp [List.filter_cons, ho]
      · intro ed hed
        obtain ⟨first, hf, hA, hB⟩ := ih2 ed hed
        exact ⟨first, by simpa [List.filter_cons, ho] using hf, hA, hB⟩
    | true =>
      obtain ⟨hl', hz⟩ := relStep_org_first e ho hl
      have hw' : mapWF (relStep st e).1 := relStep_mapWF e hw
      have hfc : (e :: rest).filter (isOrgT t)
          = e :: rest.filter (isOrgT t) := by
        simp [List.filter_cons, ho]
      have hpe : ∀ b ∈ rest.filter (isOrgT t), e.start_char ≠ b.start_char :=
        (List.pairwise_cons.1 (hfc ▸ hp)).1
      have hd : ∀ e' ∈ rest, isOrgT t e' = true → e'.start_char ≠ e.start_char :=
        fun e' he' ho' hEq =>
          hpe e' (List.mem_filter.2 ⟨he', ho'⟩) hEq.symm
      obtain ⟨ih1, ih2⟩ :=
        relRun_phase_some t e rest (relStep st e).1 hw' hl' hd
      rw [hcons, sameEdges_append, hz]
      simp only [sameEdges, List.filter_nil, List.nil_append]
      constructor
      · rw [hfc]
        simpa [sameEdges] using ih1
      · intro ed hed
        refine ⟨e, by simp [hfc], ?_, ?_⟩
        · exact ((ih2 ed (by simpa [sameEdges] using hed))).1
        · exact ((ih2 ed (by simpa [sameEdges] using hed))).2

/-- Claim C10: the head of every SAME_AS edge is the first occurrence of
that normalized ORG text: for an entity list whose ORG spans normalizing
to t (in (start, -end) sorted order) are at pairwise distinct start
offsets and number at least 2, build_relations produces exactly n-1
SAME_AS edges in that group, each with head offsets equal to the first
occurrence's span. -/
theorem C10_same_as_head (ents : List Ent) (t : Str)
    (hdis : ((sortByLt entLt ents).filter (isOrgT t)).Pairwise
      (fun a b => a.start_char ≠ b.start_char))
    (hlen : 2 ≤ ((sortByLt entLt ents).filter (isOrgT t)).length) :
    (sameEdges t (buildRelations ents)).length
        = ((sortByLt entLt ents).filter (isOrgT t)).length - 1 ∧
    ∀ ed ∈ sameEdges t (buildRelations ents),
      ∃ first, ((sortByLt entLt ents).filter (isOrgT t)).head? = some first ∧
        ed.headStart = first.start_char ∧ ed.headEnd = first.end_char := by
  have h0 : mapWF ⟨none, none, [], 1⟩ := by
    intro q hq
    simp at hq
  exact relRun_phase_none t (sortByLt entLt ents) ⟨none, none, [], 1⟩ h0 rfl hdis

def w10a : Ent := ⟨0, 5, (r"ORG"), strOf ("SEC A")⟩

def w10b : Ent := ⟨10, 18, (r"ORG"), strOf (" sec  a. ")⟩

def w10c : Ent := ⟨22, 27, (r"ORG"), strOf ("SEC A")⟩

/-- Claim C10, witness: three ORG entities whose texts normalize to
"SEC A", at distinct starts, yield exactly two SAME_AS edges, each led
by the first occurrence's offsets. -/
theorem C10_same_as_head_witness :
    (sameEdges (strOf ("SEC A")) (buildRelations [w10a, w10b, w10c])).length
        = ((sortByLt entLt [w10a, w10b, w10c]).filter
            (isOrgT (strOf ("SEC A")))).length - 1 ∧
    ∀ ed ∈ sameEdges (strOf ("SEC A")) (buildRelations [w10a, w10b, w10c]),
      ∃ first, ((sortByLt entLt [w10a, w10b, w10c]).filter
          (isOrgT (strOf ("SEC A")))).head? = some first ∧
        ed.headStart = first.start_char ∧ ed.headEnd = first.end_char :=
  C10_same_as_head [w10a, w10b, w10c] (strOf ("SEC A")) (by decide) (by decide)

-- ---------------------------------------------------------------------
-- entities.py: detect_entities and its helpers
-- ---------------------------------------------------------------------

/-- A codepoint that terminates a line for Python str.splitlines (LF, VT,
FF, CR, FS, GS, RS, NEL, LINE SEPARATOR, PARAGRAPH SEPARATOR). -/
def isLineBrkN (n : Nat) : Bool :=
  n = 10 || n = 11 || n = 12 || n = 13 || n = 28 || n = 29 || n = 30 ||
    n = 133 || n = 8232 || n = 8233

/-- Helper of splitLinesKeep: the line built so far is held in reverse. -/
def splitLinesKeepGo : Str → Str → List Str
  | cur, [] => if cur = [] then [] else [cur.reverse]
  | cur, 13 :: 10 :: rest => (cur.reverse ++ [13, 10]) :: splitLinesKeepGo [] rest
  | cur, c :: rest =>
    if isLineBrkN c then (cur.reverse ++ [c]) :: splitLinesKeepGo [] rest
    else splitLinesKeepGo (c :: cur) rest

/-- Python str.splitlines(keepends=True). -/
def splitLinesKeep (s : Str) : List Str := splitLinesKeepGo [] s

/-- Model of `line_offsets`: each line with its start and end character
offsets. -/
def lineOffsetsGo : Nat → List Str → List (Nat × Nat × Str)
  | _, [] => []
  | i, ln :: rest => (i, i + ln.length, ln) :: lineOffsetsGo (i + ln.length) rest

def lineOffsets (text : Str) : List (Nat × Nat × Str) :=
  lineOffsetsGo 0 (splitLinesKeep text)

/-- Model of NFKD followed by encode("ascii", "ignore") on one codepoint:
compatibility characters decompose (NBSP to space, ordinal indicators to
letters, the ellipsis to dots), precomposed Latin-1 letters lose their
combining mark and keep the ASCII base, and non-ASCII characters without
an ASCII base (ß Æ Ð Ø Þ and friends) are dropped. -/
def asciiFoldN (c : Nat) : List Nat :=
  if c < 128 then [c]
  else (nfkcN c).flatMap (fun d =>
    if stripDiaN d < 128 then [stripDiaN d] else [])

def asciiFold (s : Str) : Str := s.flatMap asciiFoldN

/-- Model of `has_lowercase_letter`. -/
def hasLowercaseLetter (line : Str) : Bool :=
  (pyStripWs line).any (fun c => pyIsAlphaN c && pyIsLowerN c)

/-- Python s.startswith(p). -/
def startsWithStr (p s : Str) : Bool := s.take p.length == p

/-- Python s.endswith(p). -/
def endsWithStr (p s : Str) : Bool := s.drop (s.length - p.length) == p

/-- Python `sub in s` substring membership. -/
def containsSub (sub s : Str) : Bool :=
  (List.range (s.length + 1)).any (fun i => startsWithStr sub (s.drop i))

/-- Model of `first_alpha_word_upper`: the first whitespace token holding
a letter, ASCII-folded, uppercased, stripped of `,.;:-`. -/
def firstAlphaWordUpperGo : List Str → Str
  | [] => []
  | w :: ws =>
    if w.any pyIsAlphaN then
      pyStripChars (strOf (",.;:-")) (pyUpperStr (asciiFold w))
    else firstAlphaWordUpperGo ws

def firstAlphaWordUpper (line : Str) : Str :=
  firstAlphaWordUpperGo (pySplitWs (pyStripWs line))

/-- HEADER_STARTERS of entities.py. -/
def headerStarters : List Str :=
  [strOf ("SECRETARIA"), strOf ("SECRETARIAS"), strOf ("VICE-PRESIDÊNCIA"),
   strOf ("VICE-PRESIDENCIA"), strOf ("PRESIDÊNCIA"), strOf ("PRESIDENCIA"),
   strOf ("DIREÇÃO"), strOf ("DIRECÇÃO"), strOf ("ASSEMBLEIA"),
   strOf ("CÂMARA"), strOf ("CAMARA"), strOf ("MUNICIPIO"),
   strOf ("TRIBUNAL"), strOf ("CONSERVATÓRIA"), strOf ("CONSERVATORIA"),
   strOf ("PRESIDÊNCIA DO GOVERNO"), strOf ("PRESIDENCIA DO GOVERNO"),
   strOf ("APRAM")]

/-- STOPWORDS_UP of entities.py. -/
def stopwordsUp : List Str :=
  [strOf ("DO"), strOf ("DA"), strOf ("DE"), strOf ("DOS"), strOf ("DAS"),
   strOf ("E"), strOf ("A"), strOf ("O"), strOf ("EM"), strOf ("PARA"),
   strOf ("COM"), strOf ("NO"), strOf ("NA"), strOf ("NOS"), strOf ("NAS")]

/-- DOC_LABELS_SECTION of entities.py. -/
def docLabels : List Str :=
  [strOf ("RETIFICAÇÃO"), strOf ("RECTIFICAÇÃO"), strOf ("RETIFICACAO"),
   strOf ("RECTIFICACAO"), strOf ("AVISO"), strOf ("AVISOS"),
   strOf ("DESPACHO"), strOf ("DESPACHO CONJUNTO"), strOf ("EDITAL"),
   strOf ("DELIBERAÇÃO"), strOf ("DELIBERACAO"), strOf ("DECLARAÇÃO"),
   strOf ("DECLARACAO"), strOf ("LISTA"), strOf ("LISTAS"),
   strOf ("ANÚNCIO"), strOf ("ANUNCIO"), strOf ("ANÚNCIO (RESUMO)"),
   strOf ("ANUNCIO (RESUMO)"), strOf ("CONVOCATÓRIA"), strOf ("CONVOCATORIA"),
   strOf ("REVOGAÇÃO"), strOf ("REVOGACAO"), strOf ("CONTRATO"),
   strOf ("DECRETO"), strOf ("RESOLUÇÃO"), strOf ("RESOLUCAO"),
   strOf ("DECRETO REGULAMENTAR REGIONAL"), strOf ("PORTARIA"),
   strOf ("MUDANÇA"), strOf ("MUDANCA"), strOf ("CONVERTIDO"),
   strOf ("CESSAÇÃO"), strOf ("CESSACAO")]

/-- The tuple of startswith alternatives in the numbered-form branch of
`is_doc_label_line`. -/
def docLabelHeads : List Str :=
  [strOf ("DESPACHO"), strOf ("DECLARAÇÃO"), strOf ("DECLARACAO"),
   strOf ("RETIFICAÇÃO"), strOf ("RECTIFICAÇÃO"), strOf ("AVISO"),
   strOf ("AVISOS"), strOf ("EDITAL"), strOf ("ANÚNCIO"), strOf ("ANUNCIO"),
   strOf ("REVOGAÇÃO"), strOf ("REVOGACAO"), strOf ("CONTRATO"),
   strOf ("DECRETO"), strOf ("RESOLUÇÃO"), strOf ("RESOLUCAO"),
   strOf ("PORTARIA")]

/-- The number markers of `is_doc_label_line`. -/
def numMarkers : List Str :=
  [strOf ("N.º"), strOf ("Nº"), strOf ("N°"), strOf ("N.O"), strOf ("N.O.")]

/-- CONTINUATION_CONTENT_NOUNS of entities.py. -/
def contNouns : List Str :=
  [strOf ("PLANO"), strOf ("FINANÇAS"), strOf ("FINANCAS"),
   strOf ("EDUCAÇÃO"), strOf ("EDUCACAO"), strOf ("RECURSOS"),
   strOf ("HUMANOS"), strOf ("CULTURA"), strOf ("TURISMO"),
   strOf ("TRANSPORTES"), strOf ("AMBIENTE"), strOf ("ASSUNTOS"),
   strOf ("SOCIAIS"), strOf ("TRIBUNAL")]

/-- Model of `starts_with_header_starter`. -/
def startsWithHeaderStarter (line : Str) : Bool :=
  let up := pyUpperStr (pyStripWs line)
  if up = [] then false
  else if headerStarters.contains (firstAlphaWordUpper up) then true
  else headerStarters.any (fun s => startsWithStr s up)

/-- Model of `is_blank`. -/
def isBlank (line : Str) : Bool := pyStripWs line == []

/-- Case-insensitive literal match at the head of the string, returning
the remainder. -/
def dropCI : Str → Str → Option Str
  | [], s => some s
  | _ :: _, [] => none
  | n :: ns, c :: cs => if pyUpperN c = pyUpperN n then dropCI ns cs else none

/-- Model of RX_CONTRATO_SOC matching at one position (the leading word
boundary is checked by the caller). -/
def rxContratoAt (s : Str) : Bool :=
  match dropCI (strOf ("CONTRATO")) s with
  | none => false
  | some r1 =>
    match dropCI (strOf ("DE")) (r1.dropWhile pyIsSpaceN) with
    | none => false
    | some r2 =>
      match dropCI (strOf ("SOCIEDADE")) (r2.dropWhile pyIsSpaceN) with
      | none => false
      | some r3 =>
        match r3 with
        | [] => true
        | c :: _ => !wordCharN c

/-- Model of RX_CONTRATO_SOC.search: the pattern with word boundaries
found anywhere in the string. -/
def rxContratoSearch (s : Str) : Bool :=
  (List.range (s.length + 1)).any (fun i =>
    (decide (i = 0) || !wordCharN (s.getD (i - 1) 0)) && rxContratoAt (s.drop i))

/-- Model of `is_doc_label_line`. -/
def isDocLabelLine (line : Str) : Bool :=
  let up := pyUpperStr (pyStripWs line)
  if up = [] then false
  else
    let head := collapseWs up
    if docLabels.contains head then true
    else if docLabelHeads.any (fun p => startsWithStr p head) &&
        numMarkers.any (fun nm => containsSub nm head) then true
    else rxContratoSearch up

/-- Model of `content_token_count`. -/
def contentTokenCount (line : Str) : Nat :=
  let toks := (pySplitWs (pyStripWs line)).filter (fun t => t.any pyIsAlphaN)
  let toksUp := toks.map (fun t =>
    pyStripChars (strOf (",.;:")) (pyUpperStr (asciiFold t)))
  (toksUp.filter (fun t => !stopwordsUp.contains t)).length

/-- Model of `is_header_continuation`. -/
def isHeaderContinuation (prevLine currLine : Str) : Bool :=
  if isBlank currLine then false
  else
    let currUp := pyUpperStr (pyStripWs currLine)
    let parts := pySplitWs currUp
    let headStop : Bool :=
      match parts with
      | p :: _ => stopwordsUp.contains p
      | [] => false
    if headStop && decide (1 ≤ contentTokenCount currUp) then true
    else
      let prevUp := pyUpperStr (pyStripWs prevLine)
      if [strOf (" E"), strOf (" DO"), strOf (" DA"), strOf (" DE"),
          strOf (" DOS"), strOf (" DAS")].any
            (fun suf => endsWithStr suf prevUp) then true
      else if [strOf (","), strOf ("-"), strOf ("–")].any
            (fun suf => endsWithStr suf prevUp) then true
      else headStop && contNouns.any (fun noun => containsSub noun currUp)

/-- A detected span: character offsets and a label.  spaCy Span text is
not needed by the detector loop itself. -/
structure SpanC where
  start_char : Nat
  end_char : Nat
  label : String
deriving DecidableEq

/-- Model of `char_span` with alignment_mode expand: the requested
offsets are line-aligned, hence token-aligned under the whitespace
tokenizer, so the offsets are kept; the span exists iff its text does not
strip to empty. -/
def charSpanM (text : Str) (a b : Nat) (label : String) : Option SpanC :=
  if pyStripWs (sliceStr text a b) = [] then none else some ⟨a, b, label⟩

/-- The continuation-absorbing loop of the OUTSIDE-state header branch of
`detect_entities` (no lowercase check in its break condition).  Arguments:
next line index, previous line, header end, remaining absorbable lines. -/
def absorbOut (lines : List (Nat × Nat × Str)) :
    Nat → Str → Nat → Nat → Nat × Nat
  | j, _, hEnd, 0 => (j, hEnd)
  | j, prev, hEnd, remaining + 1 =>
    match lines.get? j with
    | none => (j, hEnd)
    | some (_, enJ, lnJ) =>
      if isBlank lnJ || isDocLabelLine lnJ || startsWithHeaderStarter lnJ then
        (j, hEnd)
      else if isHeaderContinuation prev lnJ then
        absorbOut lines (j + 1) lnJ enJ remaining
      else (j, hEnd)

/-- The continuation-absorbing loop of the IN_SECTION header branch of
`detect_entities` (its break condition also checks
`has_lowercase_letter`). -/
def absorbIn (lines : List (Nat × Nat × Str)) :
    Nat → Str → Nat → Nat → Nat × Nat
  | j, _, hEnd, 0 => (j, hEnd)
  | j, prev, hEnd, remaining + 1 =>
    match lines.get? j with
    | none => (j, hEnd)
    | some (_, enJ, lnJ) =>
      if isBlank lnJ || isDocLabelLine lnJ || startsWithHeaderStarter lnJ ||
          hasLowercaseLetter lnJ then
        (j, hEnd)
      else if isHeaderContinuation prev lnJ then
        absorbIn lines (j + 1) lnJ enJ remaining
      else (j, hEnd)

/-- The two-line look-ahead for "contrato de sociedade" in the
ORG_SECUNDARIA promotion decision. -/
def lookAheadSoc (lines : List (Nat × Nat × Str)) : Nat → Nat → Bool
  | _, 0 => false
  | j, steps + 1 =>
    match lines.get? j with
    | none => false
    | some (_, _, lnJ) =>
      let la := pyUpperStr (pyStripWs lnJ)
      if rxContratoSearch la then true
      else if startsWithHeaderStarter la || isDocLabelLine la then false
      else lookAheadSoc lines (j + 1) steps

/-- The promote_secondary decision of `detect_entities`. -/
def promoteSecondary (lines : List (Nat × Nat × Str)) (i : Nat) (ln : Str) :
    Bool :=
  if !isBlank ln && !hasLowercaseLetter ln then
    if decide (4 ≤ contentTokenCount ln) && !startsWithHeaderStarter ln then
      true
    else lookAheadSoc lines (i + 1) 2
  else false

/-- The 0-2 continuation-line absorption of the ORG_SECUNDARIA branch. -/
def absorbSec (lines : List (Nat × Nat × Str)) : Nat → Nat → Nat → Nat × Nat
  | j, bEnd, 0 => (j, bEnd)
  | j, bEnd, remaining + 1 =>
    match lines.get? j with
    | none => (j, bEnd)
    | some (_, enJ, lnJ) =>
      if isBlank lnJ || startsWithHeaderStarter lnJ || isDocLabelLine lnJ ||
          hasLowercaseLetter lnJ then
        (j, bEnd)
      else absorbSec lines (j + 1) enJ remaining

/-- The main while loop of `detect_entities`.  The line index strictly
increases on every path, so a fuel of the number of lines is enough;
state is the OUTSIDE/IN_SECTION flag. -/
def detectLoop (text : Str) (lines : List (Nat × Nat × Str)) :
    Nat → Nat → Bool → List SpanC
  | 0, _, _ => []
  | fuel + 1, i, inSec =>
    match lines.get? i with
    | none => []
    | some (st, en, ln) =>
      if inSec = false then
        if isBlank ln then detectLoop text lines fuel (i + 1) false
        else if startsWithHeaderStarter ln && !hasLowercaseLetter ln then
          let r := absorbOut lines (i + 1) ln en 3
          (if st < r.2 then (charSpanM text st r.2 (r"ORG")).toList else []) ++
            detectLoop text lines fuel r.1 true
        else detectLoop text lines fuel (i + 1) false
      else
        if startsWithHeaderStarter ln && !isBlank ln &&
            !hasLowercaseLetter ln then
          let r := absorbIn lines (i + 1) ln en 3
          (if st < r.2 then (charSpanM text st r.2 (r"ORG")).toList else []) ++
            detectLoop text lines fuel r.1 true
        else if isDocLabelLine ln then
          (charSpanM text st en (r"DOC")).toList ++
            detectLoop text lines fuel (i + 1) true
        else if promoteSecondary lines i ln then
          let r := absorbSec lines (i + 1) en 2
          (charSpanM text st r.2 (r"ORG_SECUNDARIA")).toList ++
            detectLoop text lines fuel r.1 true
        else detectLoop text lines fuel (i + 1) true

/-- The exact-span dedupe pass at the end of `detect_entities`. -/
def dedupeGo (seen : List (Nat × Nat × String)) : List SpanC → List SpanC
  | [] => []
  | sp :: rest =>
    if seen.contains (sp.start_char, sp.end_char, sp.label) then
      dedupeGo seen rest
    else sp :: dedupeGo ((sp.start_char, sp.end_char, sp.label) :: seen) rest

/-- spacy.util.filter_spans works on token indices, not character
offsets.  The parameter m is the bridge: it maps a character offset to
the corresponding token index of the tokenizer (the spans fed to the
filter are token-aligned, so their token boundaries are the m-images of
their character boundaries).  Every theorem below is proved for every
such map, in particular for the map of the actual tokenizer.

The sort key of spacy.util.filter_spans: token length descending, then
token start ascending (Python sorted with reverse=True, stable). -/
def spanSortLt (m : Nat → Nat) (a b : SpanC) : Bool :=
  decide (m b.end_char - m b.start_char < m a.end_char - m a.start_char ∨
    (m a.end_char - m a.start_char = m b.end_char - m b.start_char ∧
      m a.start_char < m b.start_char))

def overlapsKept (m : Nat → Nat) (kept : List SpanC) (pos : Nat) : Bool :=
  kept.any (fun k => decide (m k.start_char ≤ pos ∧ pos < m k.end_char))

/-- The greedy keep loop of spacy.util.filter_spans: keep a span iff
neither its first nor its last token is already covered. -/
def filterGo (m : Nat → Nat) : List SpanC → List SpanC → List SpanC
  | kept, [] => kept
  | kept, sp :: rest =>
    if overlapsKept m kept (m sp.start_char) ||
        overlapsKept m kept (m sp.end_char - 1)
    then filterGo m kept rest
    else filterGo m (kept ++ [sp]) rest

/-- Model of spacy.util.filter_spans over the token map m. -/
def filterSpansC (m : Nat → Nat) (spans : List SpanC) : List SpanC :=
  sortByLt (fun a b => decide (m a.start_char < m b.start_char))
    (filterGo m [] (sortByLt (spanSortLt m) spans))

/-- Model of `detect_entities`, parametric in the token map m. -/
def detectEntities (m : Nat → Nat) (text : Str) : List SpanC :=
  let lines := lineOffsets text
  filterSpansC m (dedupeGo [] (detectLoop text lines lines.length 0 false))

/-- The C4 counterexample input: an all-caps header line ending in the
connector "DO", followed by a lowercase prose line. -/
def ce4Text : Str := strOf ("SECRETARIA REGIONAL DO\ndo plano e financas\n")

/-- On the counterexample input, detect_entities returns the same single
ORG span [0, 43) under every token map: the raw loop output is that one
span, and filter_spans keeps a sole span whatever the map. -/
theorem detectEntities_ce4 (m : Nat → Nat) :
    detectEntities m ce4Text = [⟨0, 43, (r"ORG")⟩] := by
  have hinner : dedupeGo [] (detectLoop ce4Text (lineOffsets ce4Text)
      (lineOffsets ce4Text).length 0 false) = [⟨0, 43, (r"ORG")⟩] := by
    decide
  have hdef : detectEntities m ce4Text
      = filterSpansC m (dedupeGo [] (detectLoop ce4Text
          (lineOffsets ce4Text) (lineOffsets ce4Text).length 0 false)) :=
    rfl
  rw [hdef, hinner]
  rfl

/-- Claim C4, counterexample: detect_entities (instantiated at the
identity token map; by detectEntities_ce4 its output on this input is
the same for every token map) emits an ORG span that covers (overlaps) a
line containing lowercase letters.  The header absorption loop of the
OUTSIDE state breaks on blank, doc-label and header-starter lines but,
unlike the IN_SECTION loop, not on lines with lowercase letters, so the
prose line "do plano e financas" is absorbed into the ORG span (the
previous line ends with " DO", a continuation cue). -/
theorem C4_lowercase_counterexample :
    ∃ sp ∈ detectEntities (fun n => n) ce4Text,
      (sp.label = (r"ORG") ∨ sp.label = (r"ORG_SECUNDARIA")) ∧
      ∃ q ∈ lineOffsets ce4Text,
        q.1 < sp.end_char ∧ sp.start_char < q.2.1 ∧
          hasLowercaseLetter q.2.2 = true := by
  decide

theorem splitLinesKeepGo_ne : ∀ (cur s : Str), ∀ ln ∈ splitLinesKeepGo cur s, ln ≠ [] := by
  intro cur s
  induction cur, s using splitLinesKeepGo.induct with
  | case1 =>
    intro ln h
    simp [splitLinesKeepGo] at h
  | case2 cur hc =>
    intro ln h
    rw [splitLinesKeepGo.eq_1, if_neg hc] at h
    rw [List.mem_singleton.1 h]
    intro he
    exact hc (by simpa using congrArg List.reverse he)
  | case3 cur rest ih =>
    intro ln h
    rw [splitLinesKeepGo.eq_2] at h
    rcases List.mem_cons.1 h with rfl | h'
    · simp
    · exact ih ln h'
  | case4 cur c rest hd hbrk ih =>
    intro ln h
    rw [splitLinesKeepGo.eq_3 _ _ _ hd, if_pos hbrk] at h
    rcases List.mem_cons.1 h with rfl | h'
    · simp
    · exact ih ln h'
  | case5 cur c rest hd hbrk ih =>
    intro ln h
    rw [splitLinesKeepGo.eq_3 _ _ _ hd, if_neg hbrk] at h
    exact ih ln h

theorem lineOffsetsGo_ge : ∀ (ls : List Str) (n k : Nat) {s e ln},
    (lineOffsetsGo n ls).get? k = some (s, e, ln) →
    n ≤ s ∧ e = s + ln.length ∧ ln ∈ ls := by
  intro ls
  induction ls with
  | nil => intro n k s e ln h; simp [lineOffsetsGo] at h
  | cons hd tl ih =>
    intro n k s e ln h
    cases k with
    | zero =>
      simp [lineOffsetsGo] at h
      obtain ⟨h1, h2, h3⟩ := h
      subst h1; subst h2; subst h3
      exact ⟨le_refl _, rfl, List.mem_cons_self _ _⟩
    | succ k =>
      simp only [lineOffsetsGo, List.get?] at h
      obtain ⟨h1, h2, h3⟩ := ih (n + hd.length) k h
      exact ⟨by omega, h2, List.mem_cons_of_mem _ h3⟩

theorem lineOffsetsGo_mono : ∀ (ls : List Str) (n : Nat) {a b : Nat}
    {sa ea : Nat} {lna : Str} {sb eb : Nat} {lnb : Str},
    a < b →
    (lineOffsetsGo n ls).get? a = some (sa, ea, lna) →
    (lineOffsetsGo n ls).get? b = some (sb, eb, lnb) →
    ea ≤ sb := by
  intro ls
  induction ls with
  | nil => intro n a b sa ea lna sb eb lnb hab ha hb; simp [lineOffsetsGo] at ha
  | cons hd tl ih =>
    intro n a b sa ea lna sb eb lnb hab ha hb
    cases a with
    | zero =>
      simp [lineOffsetsGo] at ha
      obtain ⟨h1, h2, h3⟩ := ha
      subst h1; subst h2; subst h3
      cases b with
      | zero => omega
      | succ b =>
        simp only [lineOffsetsGo, List.get?] at hb
        exact (lineOffsetsGo_ge tl _ _ hb).1
    | succ a =>
      cases b with
      | zero => omega
      | succ b =>
        simp only [lineOffsetsGo, List.get?] at ha hb
        exact ih _ (by omega) ha hb

/-- Every line record of lineOffsets has a nonempty line and a strictly
larger end offset. -/
theorem lineOffsets_pos (text : Str) {k : Nat} {s e : Nat} {ln : Str}
    (h : (lineOffsets text).get? k = some (s, e, ln)) : s < e := by
  obtain ⟨_, h2, h3⟩ := lineOffsetsGo_ge _ _ _ h
  have hne : ln ≠ [] := splitLinesKeepGo_ne [] text ln h3
  have : 0 < ln.length := List.length_pos.2 hne
  omega

/-- If the line at index i has no lowercase letters, then any line whose
range contains the start offset of line i has no lowercase letters. -/
theorem start_line_clean (text : Str) {i : Nat} {st en : Nat} {ln : Str}
    (hline : (lineOffsets text).get? i = some (st, en, ln))
    (hlow : hasLowercaseLetter ln = false) :
    ∀ s e ln', (s, e, ln') ∈ lineOffsets text → s ≤ st → st < e →
      hasLowercaseLetter ln' = false := by
  intro s e ln' hmem hs he
  obtain ⟨k, hk⟩ := List.mem_iff_get?.1 hmem
  rcases lt_trichotomy k i with h | h | h
  · have := lineOffsetsGo_mono _ _ h hk hline
    omega
  · subst h
    rw [hk] at hline
    obtain ⟨h1, h2, h3⟩ : s = st ∧ e = en ∧ ln' = ln := by
      simpa using hline
    rw [h3]
    exact hlow
  · have h1 := lineOffsetsGo_mono _ _ h hline hk
    have h2 := lineOffsets_pos text hline
    omega

/-- If all lines with indices between i and m are lowercase-free, then
any line overlapping the range from line i's start to line m's end is
lowercase-free. -/
theorem covered_lines_clean (text : Str) {i m : Nat} {st en : Nat}
    {ln : Str} {sm em : Nat} {lnm : Str}
    (hi : (lineOffsets text).get? i = some (st, en, ln))
    (hm : (lineOffsets text).get? m = some (sm, em, lnm))
    (hclean : ∀ k s e lnk, i ≤ k → k ≤ m →
        (lineOffsets text).get? k = some (s, e, lnk) →
        hasLowercaseLetter lnk = false) :
    ∀ s e ln', (s, e, ln') ∈ lineOffsets text → s < em → st < e →
      hasLowercaseLetter ln' = false := by
  intro s e ln' hmem h1 h2
  obtain ⟨k, hk⟩ := List.mem_iff_get?.1 hmem
  by_cases hki : k < i
  · have := lineOffsetsGo_mono _ _ hki hk hi
    omega
  · by_cases hkm : m < k
    · have := lineOffsetsGo_mono _ _ hkm hm hk
      omega
    · exact hclean k s e ln' (by omega) (by omega) hk

/-- Line coverage of a block built by one of the absorption loops: the
start line is clean, the loop's result characterizes the block end, and
all absorbed lines are clean, so every line overlapping the block is
clean. -/
theorem covered_of_spec (text : Str) {i st en : Nat} {ln : Str}
    {j2 b2 : Nat}
    (hl : (lineOffsets text).get? i = some (st, en, ln))
    (hlow : hasLowercaseLetter ln = false)
    (hmid : (j2 = i + 1 ∧ b2 = en) ∨
      ((∃ s2 ln2, (lineOffsets text).get? (j2 - 1) = some (s2, b2, ln2)) ∧
        i + 1 ≤ j2 - 1))
    (habs : ∀ k s e lnk, i + 1 ≤ k → k < j2 →
        (lineOffsets text).get? k = some (s, e, lnk) →
        hasLowercaseLetter lnk = false) :
    ∀ s e ln', (s, e, ln') ∈ lineOffsets text → s < b2 → st < e →
      hasLowercaseLetter ln' = false := by
  rcases hmid with ⟨hr1, hr2⟩ | ⟨⟨s2, ln2, hget⟩, hj⟩
  · intro s e ln' hmem hv1 hv2
    rw [hr2] at hv1
    refine covered_lines_clean text hl hl ?_ s e ln' hmem hv1 hv2
    intro k sk ek lnk hk1 hk2 hgetk
    have hki : k = i := by omega
    subst hki
    rw [hgetk] at hl
    obtain ⟨g1, g2, g3⟩ : sk = st ∧ ek = en ∧ lnk = ln := by simpa using hl
    rw [g3]
    exact hlow
  · intro s e ln' hmem hv1 hv2
    refine covered_lines_clean text hl hget ?_ s e ln' hmem hv1 hv2
    intro k sk ek lnk hk1 hk2 hgetk
    by_cases hki : k = i
    · subst hki
      rw [hgetk] at hl
      obtain ⟨g1, g2, g3⟩ : sk = st ∧ ek = en ∧ lnk = ln := by simpa using hl
      rw [g3]
      exact hlow
    · exact habs k sk ek lnk (by omega) (by omega) hgetk

/-- Specification of the ORG_SECUNDARIA absorption loop: the index does
not decrease, the returned end is either the initial end with no line
absorbed or the end offset of the last absorbed line, and every absorbed
line is lowercase-free. -/
theorem absorbSec_spec (lines : List (Nat × Nat × Str)) :
    ∀ (rem j b : Nat),
      j ≤ (absorbSec lines j b rem).1 ∧
      ((absorbSec lines j b rem).1 = j ∧ (absorbSec lines j b rem).2 = b ∨
        (∃ s ln, lines.get? ((absorbSec lines j b rem).1 - 1)
            = some (s, (absorbSec lines j b rem).2, ln)) ∧
          j ≤ (absorbSec lines j b rem).1 - 1) ∧
      ∀ k s e lnk, j ≤ k → k < (absorbSec lines j b rem).1 →
        lines.get? k = some (s, e, lnk) → hasLowercaseLetter lnk = false := by
  intro rem
  induction rem with
  | zero =>
    intro j b
    refine ⟨le_refl _, Or.inl ⟨rfl, rfl⟩, ?_⟩
    intro k s e lnk h1 h2
    simp [absorbSec] at h2
    omega
  | succ rem ih =>
    intro j b
    cases hl : lines.get? j with
    | none =>
      have heq : absorbSec lines j b (rem + 1) = (j, b) := by
        simp only [absorbSec, hl]
      rw [heq]
      refine ⟨le_refl _, Or.inl ⟨rfl, rfl⟩, ?_⟩
      intro k s e lnk h1 h2 _
      have h3 : k < j := h2
      omega
    | some q =>
      obtain ⟨sJ, enJ, lnJ⟩ := q
      by_cases hbr : (isBlank lnJ || startsWithHeaderStarter lnJ ||
          isDocLabelLine lnJ || hasLowercaseLetter lnJ) = true
      · have heq : absorbSec lines j b (rem + 1) = (j, b) := by
          simp only [absorbSec, hl]
          rw [if_pos hbr]
        rw [heq]
        refine ⟨le_refl _, Or.inl ⟨rfl, rfl⟩, ?_⟩
        intro k s e lnk h1 h2 _
        have h3 : k < j := h2
        omega
      · have heq : absorbSec lines j b (rem + 1)
            = absorbSec lines (j + 1) enJ rem := by
          simp only [absorbSec, hl]
          rw [if_neg (by simpa using hbr)]
        obtain ⟨ih1, ih2, ih3⟩ := ih (j + 1) enJ
        rw [heq]
        have hlow : hasLowercaseLetter lnJ = false := by
          have hbr2 := hbr
          simp only [Bool.or_eq_true, not_or] at hbr2
          simpa using hbr2.2
        refine ⟨by omega, ?_, ?_⟩
        · rcases ih2 with ⟨ha, hb⟩ | ⟨⟨s', ln', hget⟩, hj⟩
          · right
            refine ⟨⟨sJ, lnJ, ?_⟩, by omega⟩
            rw [ha, hb]
            simpa using hl
          · exact Or.inr ⟨⟨s', ln', hget⟩, by omega⟩
        · intro k s e lnk h1 h2 hget
          by_cases hkj : k = j
          · subst hkj
            rw [hget] at hl
            obtain ⟨e1, e2, e3⟩ : s = sJ ∧ e = enJ ∧ lnk = lnJ := by
              simpa using hl
            rw [e3]
            exact hlow
          · exact ih3 k s e lnk (by omega) h2 hget

/-- Specification of the IN_SECTION header absorption loop, in the same
shape as absorbSec_spec: the index does not decrease, the returned end
is either the initial end with no line absorbed or the end offset of the
last absorbed line, and every absorbed line is lowercase-free (its break
condition checks has_lowercase_letter). -/
theorem absorbIn_spec (lines : List (Nat × Nat × Str)) :
    ∀ (rem j : Nat) (prev : Str) (b : Nat),
      j ≤ (absorbIn lines j prev b rem).1 ∧
      ((absorbIn lines j prev b rem).1 = j ∧
          (absorbIn lines j prev b rem).2 = b ∨
        (∃ s ln, lines.get? ((absorbIn lines j prev b rem).1 - 1)
            = some (s, (absorbIn lines j prev b rem).2, ln)) ∧
          j ≤ (absorbIn lines j prev b rem).1 - 1) ∧
      ∀ k s e lnk, j ≤ k → k < (absorbIn lines j prev b rem).1 →
        lines.get? k = some (s, e, lnk) → hasLowercaseLetter lnk = false := by
  intro rem
  induction rem with
  | zero =>
    intro j prev b
    refine ⟨le_refl _, Or.inl ⟨rfl, rfl⟩, ?_⟩
    intro k s e lnk h1 h2
    simp [absorbIn] at h2
    omega
  | succ rem ih =>
    intro j prev b
    cases hl : lines.get? j with
    | none =>
      have heq : absorbIn lines j prev b (rem + 1) = (j, b) := by
        simp only [absorbIn, hl]
      rw [heq]
      refine ⟨le_refl _, Or.inl ⟨rfl, rfl⟩, ?_⟩
      intro k s e lnk h1 h2 _
      have h3 : k < j := h2
      omega
    | some q =>
      obtain ⟨sJ, enJ, lnJ⟩ := q
      by_cases hbr : (isBlank lnJ || isDocLabelLine lnJ ||
          startsWithHeaderStarter lnJ || hasLowercaseLetter lnJ) = true
      · have heq : absorbIn lines j prev b (rem + 1) = (j, b) := by
          simp only [absorbIn, hl]
          rw [if_pos hbr]
        rw [heq]
        refine ⟨le_refl _, Or.inl ⟨rfl, rfl⟩, ?_⟩
        intro k s e lnk h1 h2 _
        have h3 : k < j := h2
        omega
      · have hlow : hasLowercaseLetter lnJ = false := by
          have hbr2 := hbr
          simp only [Bool.or_eq_true, not_or] at hbr2
          simpa using hbr2.2
        by_cases hcont : isHeaderContinuation prev lnJ = true
        · have heq : absorbIn lines j prev b (rem + 1)
              = absorbIn lines (j + 1) lnJ enJ rem := by
            simp only [absorbIn, hl]
            rw [if_neg (by simpa using hbr), if_pos hcont]
          obtain ⟨ih1, ih2, ih3⟩ := ih (j + 1) lnJ enJ
          rw [heq]
          refine ⟨by omega, ?_, ?_⟩
          · rcases ih2 with ⟨ha, hb⟩ | ⟨⟨s2, ln2, hget⟩, hj⟩
            · right
              refine ⟨⟨sJ, lnJ, ?_⟩, by omega⟩
              rw [ha, hb]
              simpa using hl
            · exact Or.inr ⟨⟨s2, ln2, hget⟩, by omega⟩
          · intro k s e lnk h1 h2 hget
            by_cases hkj : k = j
            · subst hkj
              rw [hget] at hl
              obtain ⟨e1, e2, e3⟩ : s = sJ ∧ e = enJ ∧ lnk = lnJ := by
                simpa using hl
              rw [e3]
              exact hlow
            · exact ih3 k s e lnk (by omega) h2 hget
        · have heq : absorbIn lines j prev b (rem + 1) = (j, b) := by
            simp only [absorbIn, hl]
            rw [if_neg (by simpa using hbr), if_neg hcont]
          rw [heq]
          refine ⟨le_refl _, Or.inl ⟨rfl, rfl⟩, ?_⟩
          intro k s e lnk h1 h2 _
          have h3 : k < j := h2
          omega

theorem dedupeGo_sub : ∀ (seen : List (Nat × Nat × String)) (l : List SpanC),
    ∀ sp ∈ dedupeGo seen l, sp ∈ l := by
  intro seen l
  induction l generalizing seen with
  | nil => intro sp h; simp [dedupeGo] at h
  | cons x xs ih =>
    intro sp h
    simp only [dedupeGo] at h
    split at h
    · exact List.mem_cons_of_mem _ (ih _ sp h)
    · rcases List.mem_cons.1 h with rfl | h'
      · exact List.mem_cons_self _ _
      · exact List.mem_cons_of_mem _ (ih _ sp h')

theorem filterGo_sub (m : Nat → Nat) : ∀ (l kept : List SpanC),
    ∀ sp ∈ filterGo m kept l, sp ∈ kept ∨ sp ∈ l := by
  intro l
  induction l with
  | nil => intro kept sp h; exact Or.inl h
  | cons x xs ih =>
    intro kept sp h
    simp only [filterGo] at h
    split at h
    · rcases ih kept sp h with h' | h'
      · exact Or.inl h'
      · exact Or.inr (List.mem_cons_of_mem _ h')
    · rcases ih (kept ++ [x]) sp h with h' | h'
      · rcases List.mem_append.1 h' with h2 | h2
        · exact Or.inl h2
        · exact Or.inr (List.mem_cons.2 (Or.inl (List.mem_singleton.1 h2)))
      · exact Or.inr (List.mem_cons_of_mem _ h')

/-- Every span returned by detect_entities comes from the raw span list
of the detection loop (dedupe and filter_spans only remove spans),
whatever the token map. -/
theorem detectEntities_sub (m : Nat → Nat) (text : Str) :
    ∀ sp ∈ detectEntities m text,
      sp ∈ detectLoop text (lineOffsets text) (lineOffsets text).length 0
        false := by
  intro sp h
  unfold detectEntities filterSpansC at h
  rw [mem_sortByLt] at h
  rcases filterGo_sub m _ _ sp h with h' | h'
  · simp at h'
  · rw [mem_sortByLt] at h'
    exact dedupeGo_sub _ _ sp h'

theorem charSpanM_mem {text : Str} {a b : Nat} {lab : String} {sp : SpanC}
    (h : sp ∈ (charSpanM text a b lab).toList) : sp = ⟨a, b, lab⟩ := by
  unfold charSpanM at h
  split at h
  · simp at h
  · simpa using h

theorem promoteSecondary_clean {lines : List (Nat × Nat × Str)} {i : Nat}
    {ln : Str} (h : promoteSecondary lines i ln = true) :
    hasLowercaseLetter ln = false := by
  unfold promoteSecondary at h
  split at h
  · rename_i hcond
    simp only [Bool.and_eq_true] at hcond
    simpa using hcond.2
  · exact absurd h (by simp)

/-- Main invariant of the detection loop: every emitted ORG or
ORG_SECUNDARIA span begins at the start of a line with no lowercase
letters; an ORG_SECUNDARIA span covers only lines with no lowercase
letters; and when the state is already IN_SECTION, so does every emitted
ORG span (that absorption loop breaks on has_lowercase_letter). -/
theorem detectLoop_clean (text : Str) :
    ∀ (fuel i : Nat) (inSec : Bool) (sp : SpanC),
      sp ∈ detectLoop text (lineOffsets text) fuel i inSec →
      ((sp.label = (r"ORG") ∨ sp.label = (r"ORG_SECUNDARIA")) →
        ∃ en ln, (sp.start_char, en, ln) ∈ lineOffsets text ∧
          hasLowercaseLetter ln = false) ∧
      (sp.label = (r"ORG_SECUNDARIA") →
        ∀ s e ln', (s, e, ln') ∈ lineOffsets text → s < sp.end_char →
          sp.start_char < e → hasLowercaseLetter ln' = false) ∧
      (inSec = true →
        (sp.label = (r"ORG") ∨ sp.label = (r"ORG_SECUNDARIA")) →
        ∀ s e ln', (s, e, ln') ∈ lineOffsets text → s < sp.end_char →
          sp.start_char < e → hasLowercaseLetter ln' = false) := by
  intro fuel
  induction fuel with
  | zero =>
    intro i inSec sp h
    simp [detectLoop] at h
  | succ fuel ih =>
    intro i inSec sp h
    cases hl : (lineOffsets text).get? i with
    | none =>
      simp only [detectLoop, hl] at h
      simp at h
    | some q =>
      obtain ⟨st, en, ln⟩ := q
      simp only [detectLoop, hl] at h
      cases inSec with
      | false =>
        try simp only [reduceIte] at h
        by_cases hb : isBlank ln = true
        · rw [if_pos hb] at h
          obtain ⟨c1, c2, _⟩ := ih _ _ sp h
          refine ⟨c1, c2, ?_⟩
          intro habs
          simp at habs
        · rw [if_neg hb] at h
          by_cases hh : (startsWithHeaderStarter ln && !hasLowercaseLetter ln)
              = true
          · rw [if_pos hh] at h
            rcases List.mem_append.1 h with h' | h'
            · by_cases hr : st < (absorbOut (lineOffsets text) (i + 1) ln en 3).2
              · rw [if_pos hr] at h'
                have hsp := charSpanM_mem h'
                subst hsp
                have hlow : hasLowercaseLetter ln = false := by
                  simp only [Bool.and_eq_true] at hh
                  simpa using hh.2
                refine ⟨?_, ?_, ?_⟩
                · intro _
                  exact ⟨en, ln, List.get?_mem hl, hlow⟩
                · intro hlab
                  simp at hlab
                · intro habs
                  simp at habs
              · rw [if_neg hr] at h'
                simp at h'
            · obtain ⟨c1, c2, _⟩ := ih _ _ sp h'
              refine ⟨c1, c2, ?_⟩
              intro habs
              simp at habs
          · rw [if_neg hh] at h
            obtain ⟨c1, c2, _⟩ := ih _ _ sp h
            refine ⟨c1, c2, ?_⟩
            intro habs
            simp at habs
      | true =>
        try simp only [reduceIte] at h
        by_cases h1 : (startsWithHeaderStarter ln && !isBlank ln &&
            !hasLowercaseLetter ln) = true
        · rw [if_pos h1] at h
          rcases List.mem_append.1 h with h' | h'
          · by_cases hr : st < (absorbIn (lineOffsets text) (i + 1) ln en 3).2
            · rw [if_pos hr] at h'
              have hsp := charSpanM_mem h'
              subst hsp
              have hlow : hasLowercaseLetter ln = false := by
                simp only [Bool.and_eq_true] at h1
                simpa using h1.2
              obtain ⟨hA1, hmid, hA3⟩ :=
                absorbIn_spec (lineOffsets text) 3 (i + 1) ln en
              have hcov := covered_of_spec text hl hlow hmid hA3
              refine ⟨?_, ?_, ?_⟩
              · intro _
                exact ⟨en, ln, List.get?_mem hl, hlow⟩
              · intro hlab
                simp at hlab
              · intro _ _
                exact hcov
            · rw [if_neg hr] at h'
              simp at h'
          · obtain ⟨c1, c2, c3⟩ := ih _ _ sp h'
            exact ⟨c1, c2, fun _ => c3 rfl⟩
        · rw [if_neg h1] at h
          by_cases h2 : isDocLabelLine ln = true
          · rw [if_pos h2] at h
            rcases List.mem_append.1 h with h' | h'
            · have hsp := charSpanM_mem h'
              subst hsp
              refine ⟨?_, ?_, ?_⟩
              · intro hlab
                simp at hlab
              · intro hlab
                simp at hlab
              · intro _ hlab
                simp at hlab
            · obtain ⟨c1, c2, c3⟩ := ih _ _ sp h'
              exact ⟨c1, c2, fun _ => c3 rfl⟩
          · rw [if_neg h2] at h
            by_cases h3 : promoteSecondary (lineOffsets text) i ln = true
            · rw [if_pos h3] at h
              rcases List.mem_append.1 h with h' | h'
              · have hsp := charSpanM_mem h'
                subst hsp
                have hlow := promoteSecondary_clean h3
                obtain ⟨hA1, hmid, hA3⟩ :=
                  absorbSec_spec (lineOffsets text) 2 (i + 1) en
                have hcov := covered_of_spec text hl hlow hmid hA3
                refine ⟨?_, ?_, ?_⟩
                · intro _
                  exact ⟨en, ln, List.get?_mem hl, hlow⟩
                · intro _
                  exact hcov
                · intro _ _
                  exact hcov
              · obtain ⟨c1, c2, c3⟩ := ih _ _ sp h'
                exact ⟨c1, c2, fun _ => c3 rfl⟩
            · rw [if_neg h3] at h
              obtain ⟨c1, c2, c3⟩ := ih _ _ sp h
              exact ⟨c1, c2, fun _ => c3 rfl⟩

/-- Claim C4 (amended): for every token map and text, every ORG or
ORG_SECUNDARIA span returned by detect_entities begins at the start of a
line with no lowercase letters; every ORG_SECUNDARIA span covers
(overlaps) only lines with no lowercase letters; and every ORG or
ORG_SECUNDARIA span emitted by the detection loop while the state
machine is already IN_SECTION covers only lines with no lowercase
letters.  The original claim fails only for continuation lines absorbed
into an ORG header recognized while the state is still OUTSIDE, whose
absorption loop has no lowercase check. -/
theorem C4_lowercase_amended (m : Nat → Nat) (text : Str) :
    (∀ sp ∈ detectEntities m text,
      (sp.label = (r"ORG") ∨ sp.label = (r"ORG_SECUNDARIA")) →
        ∃ en ln, (sp.start_char, en, ln) ∈ lineOffsets text ∧
          hasLowercaseLetter ln = false) ∧
    (∀ sp ∈ detectEntities m text, sp.label = (r"ORG_SECUNDARIA") →
      ∀ s e ln, (s, e, ln) ∈ lineOffsets text → s < sp.end_char →
        sp.start_char < e → hasLowercaseLetter ln = false) ∧
    (∀ fuel i sp, sp ∈ detectLoop text (lineOffsets text) fuel i true →
      (sp.label = (r"ORG") ∨ sp.label = (r"ORG_SECUNDARIA")) →
      ∀ s e ln, (s, e, ln) ∈ lineOffsets text → s < sp.end_char →
        sp.start_char < e → hasLowercaseLetter ln = false) := by
  refine ⟨?_, ?_, ?_⟩
  · intro sp hmem hlab
    exact (detectLoop_clean text _ 0 false sp
      (detectEntities_sub m text sp hmem)).1 hlab
  · intro sp hmem hlab
    exact (detectLoop_clean text _ 0 false sp
      (detectEntities_sub m text sp hmem)).2.1 hlab
  · intro fuel i sp hmem hlab
    exact (detectLoop_clean text fuel i true sp hmem).2.2 rfl hlab

def w4Text : Str := strOf ("SECRETARIA A\nFIRMA BOA FORTE LDAX\n")

/-- Claim C4, witness for the amended theorem: under the identity token
map, the ORG_SECUNDARIA span detected on the second line of w4Text
covers only that lowercase-free line. -/
theorem C4_lowercase_amended_witness :
    hasLowercaseLetter (strOf ("FIRMA BOA FORTE LDAX\n")) = false :=
  (C4_lowercase_amended (fun n => n) w4Text).2.1
    ⟨13, 34, (r"ORG_SECUNDARIA")⟩ (by decide) rfl 13 34
    (strOf ("FIRMA BOA FORTE LDAX\n")) (by decide) (by decide) (by decide)

end Gazette
